import Mathlib

/-!
Verification of the splitrc split reference counter (src/lib.rs).

The core of the library is `SplitCount`, a single `AtomicU64` packing three
sub-counts (big-endian): a 31-bit tx count at bit 33, a 31-bit rx count at
bit 2, and a 2-bit drop count at bit 0.  Every mutation of the counter is a
single atomic read-modify-write, so an arbitrary multi-threaded execution is
faithfully modelled as an interleaving of those atomic transitions.  We embed
the counter word as a `Nat` reduced mod `2 ^ 64` exactly where the `u64`
arithmetic wraps, translate each Rust function on the word into a Lean
function, and build a labelled transition system whose atomic steps are the
counter operations performed by `Clone`/`Drop` of `Tx`/`Rx` plus the
notification callback and the `inc_drop_count` finalization that follow a
`DecrementAction::Notify`.  Deallocation (`deallocate`: `drop_in_place`
followed by `dealloc`) is recorded as the event pair `destroy`, `release`.
-/

namespace Splitrc

/-! Constants from src/lib.rs lines 80-122. -/

def TX_SHIFT : Nat := 33
def RX_SHIFT : Nat := 2
def DC_SHIFT : Nat := 0

def TX_MASK : Nat := (1 <<< 31) - 1
def RX_MASK : Nat := (1 <<< 31) - 1
def DC_MASK : Nat := 3

def TX_INC : Nat := 1 <<< TX_SHIFT
def RX_INC : Nat := 1 <<< RX_SHIFT
def DC_INC : Nat := 1 <<< DC_SHIFT

def RC_INIT : Nat := TX_INC + RX_INC

def OVERFLOW_PANIC : Nat := 1 <<< 30
def OVERFLOW_ABORT : Nat := (2 ^ 32 - 1) - (1 <<< 16)

def U64 : Nat := 2 ^ 64

/-- Rust `(c >> TX_SHIFT) as u32 & TX_MASK` (truncating cast to u32, then mask). -/
def tx_count (c : Nat) : Nat := ((c >>> TX_SHIFT) % 2 ^ 32) &&& TX_MASK

/-- Rust `(c >> RX_SHIFT) as u32 & RX_MASK`. -/
def rx_count (c : Nat) : Nat := ((c >>> RX_SHIFT) % 2 ^ 32) &&& RX_MASK

/-- Rust `(c >> DC_SHIFT) as u8 & DC_MASK`. -/
def drop_count (c : Nat) : Nat := ((c >>> DC_SHIFT) % 2 ^ 8) &&& DC_MASK

theorem tx_count_eq (c : Nat) : tx_count c = c / 2 ^ 33 % 2 ^ 31 := by
  unfold tx_count TX_SHIFT TX_MASK
  rw [show ((1 : Nat) <<< 31) - 1 = 2 ^ 31 - 1 by rfl,
    Nat.and_pow_two_sub_one_eq_mod, Nat.shiftRight_eq_div_pow,
    Nat.mod_mod_of_dvd _ (by norm_num)]

theorem rx_count_eq (c : Nat) : rx_count c = c / 4 % 2 ^ 31 := by
  unfold rx_count RX_SHIFT RX_MASK
  rw [show ((1 : Nat) <<< 31) - 1 = 2 ^ 31 - 1 by rfl,
    Nat.and_pow_two_sub_one_eq_mod, Nat.shiftRight_eq_div_pow,
    Nat.mod_mod_of_dvd _ (by norm_num)]

theorem drop_count_eq (c : Nat) : drop_count c = c % 4 := by
  unfold drop_count DC_SHIFT DC_MASK
  rw [show (3 : Nat) = 2 ^ 2 - 1 by rfl, Nat.and_pow_two_sub_one_eq_mod,
    Nat.shiftRight_eq_div_pow, Nat.mod_mod_of_dvd _ (by norm_num)]
  simp

/-- Rust `enum DecrementAction`. -/
inductive DecrementAction where
  | nothing
  | notify
  | drop
deriving DecidableEq, Repr

/-- `SplitCount::dec_tx`.  The whole `fetch_update` closure is one atomic
transaction; we return the committed action together with the new word.
`current -= TX_INC` is wrapping u64 subtraction. -/
def dec_tx (c : Nat) : DecrementAction × Nat :=
  let current := (c + (U64 - TX_INC)) % U64
  if tx_count current = 0 then
    if rx_count current = 0 then
      let current2 := (current + DC_INC) % U64
      if drop_count current2 = 1 then
        (DecrementAction.nothing, current2)
      else
        (DecrementAction.drop, current2)
    else
      (DecrementAction.notify, current)
  else
    (DecrementAction.nothing, current)

/-- `SplitCount::dec_rx`, mirror image of `dec_tx`. -/
def dec_rx (c : Nat) : DecrementAction × Nat :=
  let current := (c + (U64 - RX_INC)) % U64
  if rx_count current = 0 then
    if tx_count current = 0 then
      let current2 := (current + DC_INC) % U64
      if drop_count current2 = 1 then
        (DecrementAction.nothing, current2)
      else
        (DecrementAction.drop, current2)
    else
      (DecrementAction.notify, current)
  else
    (DecrementAction.nothing, current)

/-- `SplitCount::inc_drop_count`: `1 == self.0.fetch_add(DC_INC, AcqRel)`.
The returned flag compares the previous whole word against `1`. -/
def inc_drop_count (c : Nat) : Bool × Nat :=
  (c == 1, (c + DC_INC) % U64)

/-- Result of `SplitCount::inc_tx` / `inc_rx`: normal return with the
incremented word, recoverable panic after undoing the increment (the word
after `fetch_add` then `fetch_sub`), or process abort. -/
inductive IncResult where
  | ok (c : Nat)
  | panicked (c : Nat)
  | aborted
deriving DecidableEq, Repr

/-- `SplitCount::inc_tx` combined with `inc_tx_overflow`: the threshold tests
are on `tx_count(old)`, the value BEFORE the `fetch_add`. -/
def inc_tx (c : Nat) : IncResult :=
  let old := c
  let bumped := (c + TX_INC) % U64
  if tx_count old < OVERFLOW_PANIC then
    IncResult.ok bumped
  else if OVERFLOW_ABORT ≤ tx_count old then
    IncResult.aborted
  else
    IncResult.panicked ((bumped + (U64 - TX_INC)) % U64)

/-- `SplitCount::inc_rx` combined with `inc_rx_overflow`. -/
def inc_rx (c : Nat) : IncResult :=
  let old := c
  let bumped := (c + RX_INC) % U64
  if rx_count old < OVERFLOW_PANIC then
    IncResult.ok bumped
  else if OVERFLOW_ABORT ≤ rx_count old then
    IncResult.aborted
  else
    IncResult.panicked ((bumped + (U64 - RX_INC)) % U64)

/-! Packed-word arithmetic.  In every reachable state the word is
`t * 2^33 + r * 4 + d` with `t, r ≤ 2^30` and `d ≤ 2`. -/

def pack (t r d : Nat) : Nat := t * 2 ^ 33 + r * 4 + d

theorem tx_count_pack (t r d : Nat) (ht : t ≤ 2 ^ 30) (hr : r ≤ 2 ^ 30) (hd : d ≤ 3) :
    tx_count (pack t r d) = t := by
  rw [tx_count_eq]; unfold pack; omega

theorem rx_count_pack (t r d : Nat) (ht : t ≤ 2 ^ 30) (hr : r ≤ 2 ^ 30) (hd : d ≤ 3) :
    rx_count (pack t r d) = r := by
  rw [rx_count_eq]; unfold pack; omega

theorem drop_count_pack (t r d : Nat) (ht : t ≤ 2 ^ 30) (hr : r ≤ 2 ^ 30) (hd : d ≤ 3) :
    drop_count (pack t r d) = d := by
  rw [drop_count_eq]; unfold pack; omega

theorem pack_lt_u64 (t r d : Nat) (ht : t ≤ 2 ^ 30) (hr : r ≤ 2 ^ 30) (hd : d ≤ 3) :
    pack t r d < U64 := by
  unfold pack U64; omega

/-- Behaviour of the `dec_tx` transaction on a well-formed packed word with a
live tx reference. -/
theorem dec_tx_pack (t r d : Nat) (ht1 : 1 ≤ t) (ht : t ≤ 2 ^ 30)
    (hr : r ≤ 2 ^ 30) (hd : d ≤ 2) :
    dec_tx (pack t r d) =
      if t = 1 then
        if r = 0 then
          if d = 0 then (DecrementAction.nothing, pack 0 0 1)
          else (DecrementAction.drop, pack 0 0 (d + 1))
        else (DecrementAction.notify, pack 0 r d)
      else (DecrementAction.nothing, pack (t - 1) r d)
    := by
  have hw : (pack t r d + (U64 - TX_INC)) % U64 = pack (t - 1) r d := by
    unfold pack U64 TX_INC TX_SHIFT; omega
  unfold dec_tx
  rw [hw]
  dsimp only
  rw [tx_count_pack (t - 1) r d (by omega) hr (by omega)]
  by_cases h1 : t = 1
  · subst h1
    simp only [show (1 : Nat) - 1 = 0 from rfl, if_pos rfl]
    rw [rx_count_pack 0 r d (by omega) hr (by omega)]
    by_cases h2 : r = 0
    · subst h2
      have hw2 : (pack 0 0 d + DC_INC) % U64 = pack 0 0 (d + 1) := by
        unfold pack U64 DC_INC DC_SHIFT; omega
      simp only [if_pos rfl, hw2]
      rw [drop_count_pack 0 0 (d + 1) (by omega) (by omega) (by omega)]
      by_cases h3 : d = 0
      · subst h3; simp
      · have : ¬ (d + 1 = 1) := by omega
        simp [h3, this]
    · simp [h2]
  · have : ¬ (t - 1 = 0) := by omega
    simp [h1, this]

/-- Behaviour of the `dec_rx` transaction, mirror of `dec_tx_pack`. -/
theorem dec_rx_pack (t r d : Nat) (hr1 : 1 ≤ r) (ht : t ≤ 2 ^ 30)
    (hr : r ≤ 2 ^ 30) (hd : d ≤ 2) :
    dec_rx (pack t r d) =
      if r = 1 then
        if t = 0 then
          if d = 0 then (DecrementAction.nothing, pack 0 0 1)
          else (DecrementAction.drop, pack 0 0 (d + 1))
        else (DecrementAction.notify, pack t 0 d)
      else (DecrementAction.nothing, pack t (r - 1) d)
    := by
  have hw : (pack t r d + (U64 - RX_INC)) % U64 = pack t (r - 1) d := by
    unfold pack U64 RX_INC RX_SHIFT; omega
  unfold dec_rx
  rw [hw]
  dsimp only
  rw [rx_count_pack t (r - 1) d ht (by omega) (by omega)]
  by_cases h1 : r = 1
  · subst h1
    simp only [show (1 : Nat) - 1 = 0 from rfl, if_pos rfl]
    rw [tx_count_pack t 0 d ht (by omega) (by omega)]
    by_cases h2 : t = 0
    · subst h2
      have hw2 : (pack 0 0 d + DC_INC) % U64 = pack 0 0 (d + 1) := by
        unfold pack U64 DC_INC DC_SHIFT; omega
      simp only [if_pos rfl, hw2]
      rw [drop_count_pack 0 0 (d + 1) (by omega) (by omega) (by omega)]
      by_cases h3 : d = 0
      · subst h3; simp
      · have : ¬ (d + 1 = 1) := by omega
        simp [h3, this]
    · simp [h2]
  · have : ¬ (r - 1 = 0) := by omega
    simp [h1, this]

/-- Behaviour of `inc_drop_count` on a packed word with no live references. -/
theorem inc_drop_count_pack (r d : Nat) (hr : r ≤ 2 ^ 30) (hd : d ≤ 2) :
    inc_drop_count (pack 0 r d) = (decide (r = 0 ∧ d = 1), pack 0 r (d + 1)) := by
  unfold inc_drop_count
  have h1 : (pack 0 r d + DC_INC) % U64 = pack 0 r (d + 1) := by
    unfold pack U64 DC_INC DC_SHIFT; omega
  have h2 : (pack 0 r d == 1) = (decide (r = 0 ∧ d = 1)) := by
    by_cases h : r = 0 ∧ d = 1
    · obtain ⟨h3, h4⟩ := h; subst h3; subst h4; decide
    · have hne : pack 0 r d ≠ 1 := by unfold pack; omega
      rw [decide_eq_false h, beq_eq_false_iff_ne.mpr hne]
  rw [h1, h2]

/-! The labelled transition system.

A state tracks the shared counter word `c` together with ghost bookkeeping:
`t` / `r` are the numbers of live `Tx` / `Rx` handles, and `pt` / `pr`
record how far each side's teardown has progressed.  The phases mirror the
control flow of `impl Drop for Tx` (lines 285-303) and `impl Drop for Rx`
(lines 356-374): `alive` while handles of the kind remain; `notifying`
after the final `dec` returned `Notify` but before the callback ran;
`notified` after the callback returned, before `inc_drop_count`;
`doneNotified` after `inc_drop_count`; `doneQuiet` when the final `dec`
itself bumped the drop count (the no-callback paths). -/

inductive Phase where
  | alive
  | notifying
  | notified
  | doneNotified
  | doneQuiet
deriving DecidableEq, Repr

structure St where
  c : Nat
  t : Nat
  r : Nat
  pt : Phase
  pr : Phase
deriving DecidableEq, Repr

/-- State allocated by `new` (src/lib.rs lines 424-441): counter `RC_INIT`,
one live `Tx`, one live `Rx`. -/
def stInit : St := ⟨RC_INIT, 1, 1, Phase.alive, Phase.alive⟩

/-- One atomic step of one thread: a successful clone of a live handle, the
`dec_tx`/`dec_rx` transaction of a drop, the notification callback, or the
`inc_drop_count` finalization after a callback. -/
inductive Lab where
  | cloneT
  | cloneR
  | dropT
  | dropR
  | cbT
  | cbR
  | finT
  | finR
deriving DecidableEq, Repr

/-- Observable events: a `last_tx_did_drop_pinned` / `last_rx_did_drop_pinned`
callback invocation returning, and the two halves of `deallocate`
(`drop_in_place`, then `dealloc`). -/
inductive Ev where
  | cbTx
  | cbRx
  | destroy
  | release
deriving DecidableEq, Repr

/-- The atomic transition relation, as a partial function: `none` means the
label is not enabled in this state.  A clone step requires a live handle of
its kind and models the non-overflow path of `inc_tx`/`inc_rx` (an
overflowing clone rolls its increment back and panics, so it creates no
handle and leaves the counter unchanged). -/
def step (s : St) : Lab → Option (St × List Ev)
  | Lab.cloneT =>
    if 1 ≤ s.t ∧ tx_count s.c < OVERFLOW_PANIC then
      some (⟨(s.c + TX_INC) % U64, s.t + 1, s.r, s.pt, s.pr⟩, [])
    else none
  | Lab.cloneR =>
    if 1 ≤ s.r ∧ rx_count s.c < OVERFLOW_PANIC then
      some (⟨(s.c + RX_INC) % U64, s.t, s.r + 1, s.pt, s.pr⟩, [])
    else none
  | Lab.dropT =>
    if 1 ≤ s.t then
      let ac := dec_tx s.c
      let pt' := if s.t = 1 then
          (if ac.1 = DecrementAction.notify then Phase.notifying else Phase.doneQuiet)
        else s.pt
      some (⟨ac.2, s.t - 1, s.r, pt', s.pr⟩,
        if ac.1 = DecrementAction.drop then [Ev.destroy, Ev.release] else [])
    else none
  | Lab.dropR =>
    if 1 ≤ s.r then
      let ac := dec_rx s.c
      let pr' := if s.r = 1 then
          (if ac.1 = DecrementAction.notify then Phase.notifying else Phase.doneQuiet)
        else s.pr
      some (⟨ac.2, s.t, s.r - 1, s.pt, pr'⟩,
        if ac.1 = DecrementAction.drop then [Ev.destroy, Ev.release] else [])
    else none
  | Lab.cbT =>
    if s.pt = Phase.notifying then
      some (⟨s.c, s.t, s.r, Phase.notified, s.pr⟩, [Ev.cbTx])
    else none
  | Lab.cbR =>
    if s.pr = Phase.notifying then
      some (⟨s.c, s.t, s.r, s.pt, Phase.notified⟩, [Ev.cbRx])
    else none
  | Lab.finT =>
    if s.pt = Phase.notified then
      let bc := inc_drop_count s.c
      some (⟨bc.2, s.t, s.r, Phase.doneNotified, s.pr⟩,
        if bc.1 then [Ev.destroy, Ev.release] else [])
    else none
  | Lab.finR =>
    if s.pr = Phase.notified then
      let bc := inc_drop_count s.c
      some (⟨bc.2, s.t, s.r, s.pt, Phase.doneNotified⟩,
        if bc.1 then [Ev.destroy, Ev.release] else [])
    else none

/-- Execute a schedule (one label per atomic step, in interleaving order),
accumulating the events emitted. -/
def run (s : St) : List Lab → Option (St × List Ev)
  | [] => some (s, [])
  | l :: ls =>
    match step s l with
    | none => none
    | some (s', evs) =>
      match run s' ls with
      | none => none
      | some (s'', evs') => some (s'', evs ++ evs')

/-- A side has finished its teardown (its drop-count contribution is in). -/
def phDone (p : Phase) : Bool :=
  p = Phase.doneNotified || p = Phase.doneQuiet

/-- A side whose last decrement returned `Notify` (callback pending, run, or
finished). -/
def phG (p : Phase) : Bool :=
  p = Phase.notifying || p = Phase.notified || p = Phase.doneNotified

/-- A side whose callback has already run. -/
def phNotified (p : Phase) : Bool :=
  p = Phase.notified || p = Phase.doneNotified

/-- Drop-count contribution of the two phases. -/
def dcp (pt pr : Phase) : Nat :=
  (if phDone pt then 1 else 0) + (if phDone pr then 1 else 0)

/-- All handles dropped and both sides' teardown fully finished. -/
def Complete (s : St) : Prop :=
  s.t = 0 ∧ s.r = 0 ∧ phDone s.pt = true ∧ phDone s.pr = true

/-- The events a reachable state has emitted so far, reconstructed from the
state (proved below to agree with the accumulated event list). -/
def evsOf (s : St) : List Ev :=
  (if phNotified s.pt then [Ev.cbTx]
   else if phNotified s.pr then [Ev.cbRx] else [])
  ++ (if phDone s.pt ∧ phDone s.pr then [Ev.destroy, Ev.release] else [])

/-- State invariant: the counter word is exactly the pack of the live-handle
counts and the finished-sides count, the handle counts stay within the
overflow-guarded range, a side is in phase `alive` exactly while it has live
handles, at most one side ever takes the notify path, the two sides cannot
both finish quietly, and a quietly-finished side saw the other side already
empty (which then stays empty). -/
def Inv (s : St) : Prop :=
  s.c = pack s.t s.r (dcp s.pt s.pr)
  ∧ s.t ≤ 2 ^ 30 ∧ s.r ≤ 2 ^ 30
  ∧ (s.pt = Phase.alive ↔ 1 ≤ s.t)
  ∧ (s.pr = Phase.alive ↔ 1 ≤ s.r)
  ∧ ¬(phG s.pt = true ∧ phG s.pr = true)
  ∧ ¬(s.pt = Phase.doneQuiet ∧ s.pr = Phase.doneQuiet)
  ∧ (s.pt = Phase.doneQuiet → s.r = 0)
  ∧ (s.pr = Phase.doneQuiet → s.t = 0)

theorem inv_init : Inv stInit := by unfold Inv; decide

theorem dcp_le (pt pr : Phase) : dcp pt pr ≤ 2 := by
  cases pt <;> cases pr <;> decide

theorem phDone_iff (p : Phase) :
    phDone p = true ↔ p = Phase.doneNotified ∨ p = Phase.doneQuiet := by
  cases p <;> decide

theorem phG_iff (p : Phase) :
    phG p = true ↔ p = Phase.notifying ∨ p = Phase.notified ∨ p = Phase.doneNotified := by
  cases p <;> decide

theorem phNotified_iff (p : Phase) :
    phNotified p = true ↔ p = Phase.notified ∨ p = Phase.doneNotified := by
  cases p <;> decide

theorem OVERFLOW_PANIC_eq : OVERFLOW_PANIC = 2 ^ 30 := by decide

theorem pack_add_tx (t r d : Nat) (ht : t + 1 ≤ 2 ^ 30) (hr : r ≤ 2 ^ 30) (hd : d ≤ 3) :
    (pack t r d + TX_INC) % U64 = pack (t + 1) r d := by
  unfold pack U64 TX_INC TX_SHIFT; omega

theorem pack_add_rx (t r d : Nat) (ht : t ≤ 2 ^ 30) (hr : r + 1 ≤ 2 ^ 30) (hd : d ≤ 3) :
    (pack t r d + RX_INC) % U64 = pack t (r + 1) d := by
  unfold pack U64 RX_INC RX_SHIFT; omega

/-! Soundness of each atomic step with respect to the invariant and to the
state-reconstructed event history. -/

theorem cloneT_sound (c t r : Nat) (pt pr : Phase) (s' : St) (evs : List Ev)
    (hI : Inv ⟨c, t, r, pt, pr⟩)
    (h : step ⟨c, t, r, pt, pr⟩ Lab.cloneT = some (s', evs)) :
    Inv s' ∧ evsOf s' = evsOf ⟨c, t, r, pt, pr⟩ ++ evs := by
  obtain ⟨hc, ht, hr, hpt, hpr, hG, hQQ, hQt, hQr⟩ := hI
  dsimp only at hc ht hr hpt hpr hG hQQ hQt hQr
  simp only [step] at h
  split at h
  case isFalse => simp at h
  case isTrue hg =>
    obtain ⟨hg1, hg2⟩ := hg
    obtain ⟨rfl, rfl⟩ :
        (⟨(c + TX_INC) % U64, t + 1, r, pt, pr⟩ : St) = s' ∧ ([] : List Ev) = evs := by
      simpa using h
    have hdle := dcp_le pt pr
    have htx : tx_count c = t := by
      rw [hc]; exact tx_count_pack _ _ _ ht hr (by omega)
    rw [htx, OVERFLOW_PANIC_eq] at hg2
    have hpta : pt = Phase.alive := hpt.mpr hg1
    subst hpta
    have hprq : pr ≠ Phase.doneQuiet := fun hq => by have := hQr hq; omega
    constructor
    · unfold Inv
      dsimp only
      refine ⟨?_, by omega, hr, ?_, hpr, ?_, ?_, ?_, ?_⟩
      · rw [hc]; exact pack_add_tx _ _ _ (by omega) hr (by omega)
      · exact iff_of_true rfl (by omega)
      · exact fun hh => absurd hh.1 (by decide)
      · exact fun hh => absurd hh.1 (by decide)
      · exact fun hh => absurd hh (by decide)
      · exact fun hq => absurd hq hprq
    · simp [evsOf]

theorem cloneR_sound (c t r : Nat) (pt pr : Phase) (s' : St) (evs : List Ev)
    (hI : Inv ⟨c, t, r, pt, pr⟩)
    (h : step ⟨c, t, r, pt, pr⟩ Lab.cloneR = some (s', evs)) :
    Inv s' ∧ evsOf s' = evsOf ⟨c, t, r, pt, pr⟩ ++ evs := by
  obtain ⟨hc, ht, hr, hpt, hpr, hG, hQQ, hQt, hQr⟩ := hI
  dsimp only at hc ht hr hpt hpr hG hQQ hQt hQr
  simp only [step] at h
  split at h
  case isFalse => simp at h
  case isTrue hg =>
    obtain ⟨hg1, hg2⟩ := hg
    obtain ⟨rfl, rfl⟩ :
        (⟨(c + RX_INC) % U64, t, r + 1, pt, pr⟩ : St) = s' ∧ ([] : List Ev) = evs := by
      simpa using h
    have hdle := dcp_le pt pr
    have hrx : rx_count c = r := by
      rw [hc]; exact rx_count_pack _ _ _ ht hr (by omega)
    rw [hrx, OVERFLOW_PANIC_eq] at hg2
    have hpra : pr = Phase.alive := hpr.mpr hg1
    subst hpra
    have hptq : pt ≠ Phase.doneQuiet := fun hq => by have := hQt hq; omega
    constructor
    · unfold Inv
      dsimp only
      refine ⟨?_, ht, by omega, hpt, ?_, ?_, ?_, ?_, ?_⟩
      · rw [hc]; exact pack_add_rx _ _ _ ht (by omega) (by omega)
      · exact iff_of_true rfl (by omega)
      · exact fun hh => absurd hh.2 (by decide)
      · exact fun hh => absurd hh.2 (by decide)
      · exact fun hq => absurd hq hptq
      · exact fun hh => absurd hh (by decide)
    · simp [evsOf]

theorem dropT_sound (c t r : Nat) (pt pr : Phase) (s' : St) (evs : List Ev)
    (hI : Inv ⟨c, t, r, pt, pr⟩)
    (h : step ⟨c, t, r, pt, pr⟩ Lab.dropT = some (s', evs)) :
    Inv s' ∧ evsOf s' = evsOf ⟨c, t, r, pt, pr⟩ ++ evs := by
  obtain ⟨hc, ht, hr, hpt, hpr, hG, hQQ, hQt, hQr⟩ := hI
  dsimp only at hc ht hr hpt hpr hG hQQ hQt hQr
  simp only [step] at h
  split at h
  case isFalse => simp at h
  case isTrue hg1 =>
    dsimp only at hg1 h
    have hdle := dcp_le pt pr
    have hpta : pt = Phase.alive := hpt.mpr hg1
    subst hpta
    rw [hc, dec_tx_pack t r _ hg1 ht hr hdle] at h
    by_cases h1 : t = 1
    · subst h1
      by_cases h2 : r = 0
      · subst h2
        have hpra : pr ≠ Phase.alive := fun hh => by have := hpr.mp hh; omega
        have hprq : pr ≠ Phase.doneQuiet := fun hh => by have := hQr hh; omega
        cases pr with
        | alive => exact absurd rfl hpra
        | doneQuiet => exact absurd rfl hprq
        | notifying =>
          rw [show dcp Phase.alive Phase.notifying = 0 from by decide] at h
          obtain ⟨rfl, rfl⟩ :
              (⟨pack 0 0 1, 0, 0, Phase.doneQuiet, Phase.notifying⟩ : St) = s'
                ∧ ([] : List Ev) = evs := by
            simpa using h
          exact ⟨by unfold Inv; decide, by simp [evsOf, phNotified, phDone]⟩
        | notified =>
          rw [show dcp Phase.alive Phase.notified = 0 from by decide] at h
          obtain ⟨rfl, rfl⟩ :
              (⟨pack 0 0 1, 0, 0, Phase.doneQuiet, Phase.notified⟩ : St) = s'
                ∧ ([] : List Ev) = evs := by
            simpa using h
          exact ⟨by unfold Inv; decide, by simp [evsOf, phNotified, phDone]⟩
        | doneNotified =>
          rw [show dcp Phase.alive Phase.doneNotified = 1 from by decide] at h
          obtain ⟨rfl, rfl⟩ :
              (⟨pack 0 0 2, 0, 0, Phase.doneQuiet, Phase.doneNotified⟩ : St) = s'
                ∧ [Ev.destroy, Ev.release] = evs := by
            simpa using h
          exact ⟨by unfold Inv; decide, by simp [evsOf, phNotified, phDone]⟩
      · rw [if_neg h2] at h
        have hpra : pr = Phase.alive := hpr.mpr (by omega)
        subst hpra
        rw [show dcp Phase.alive Phase.alive = 0 from by decide] at h
        obtain ⟨rfl, rfl⟩ :
            (⟨pack 0 r 0, 0, r, Phase.notifying, Phase.alive⟩ : St) = s'
              ∧ ([] : List Ev) = evs := by
          simpa using h
        constructor
        · unfold Inv
          dsimp only
          refine ⟨rfl, by omega, hr, by decide, iff_of_true rfl (by omega),
            ?_, ?_, ?_, ?_⟩
          · exact fun hh => absurd hh.2 (by decide)
          · exact fun hh => absurd hh.1 (by decide)
          · exact fun hh => absurd hh (by decide)
          · exact fun hh => absurd hh (by decide)
        · simp [evsOf, phNotified, phDone]
    · simp only [if_neg h1] at h
      obtain ⟨rfl, rfl⟩ :
          (⟨pack (t - 1) r (dcp Phase.alive pr), t - 1, r, Phase.alive, pr⟩ : St) = s'
            ∧ ([] : List Ev) = evs := by
        simpa using h
      constructor
      · unfold Inv
        dsimp only
        exact ⟨rfl, by omega, hr, iff_of_true rfl (by omega), hpr, hG, hQQ, hQt,
          fun hh => by have := hQr hh; omega⟩
      · simp [evsOf]

theorem dropR_sound (c t r : Nat) (pt pr : Phase) (s' : St) (evs : List Ev)
    (hI : Inv ⟨c, t, r, pt, pr⟩)
    (h : step ⟨c, t, r, pt, pr⟩ Lab.dropR = some (s', evs)) :
    Inv s' ∧ evsOf s' = evsOf ⟨c, t, r, pt, pr⟩ ++ evs := by
  obtain ⟨hc, ht, hr, hpt, hpr, hG, hQQ, hQt, hQr⟩ := hI
  dsimp only at hc ht hr hpt hpr hG hQQ hQt hQr
  simp only [step] at h
  split at h
  case isFalse => simp at h
  case isTrue hg1 =>
    dsimp only at hg1 h
    have hdle := dcp_le pt pr
    have hpra : pr = Phase.alive := hpr.mpr hg1
    subst hpra
    rw [hc, dec_rx_pack t r _ hg1 ht hr hdle] at h
    by_cases h1 : r = 1
    · subst h1
      by_cases h2 : t = 0
      · subst h2
        have hpta : pt ≠ Phase.alive := fun hh => by have := hpt.mp hh; omega
        have hptq : pt ≠ Phase.doneQuiet := fun hh => by have := hQt hh; omega
        cases pt with
        | alive => exact absurd rfl hpta
        | doneQuiet => exact absurd rfl hptq
        | notifying =>
          rw [show dcp Phase.notifying Phase.alive = 0 from by decide] at h
          obtain ⟨rfl, rfl⟩ :
              (⟨pack 0 0 1, 0, 0, Phase.notifying, Phase.doneQuiet⟩ : St) = s'
                ∧ ([] : List Ev) = evs := by
            simpa using h
          exact ⟨by unfold Inv; decide, by simp [evsOf, phNotified, phDone]⟩
        | notified =>
          rw [show dcp Phase.notified Phase.alive = 0 from by decide] at h
          obtain ⟨rfl, rfl⟩ :
              (⟨pack 0 0 1, 0, 0, Phase.notified, Phase.doneQuiet⟩ : St) = s'
                ∧ ([] : List Ev) = evs := by
            simpa using h
          exact ⟨by unfold Inv; decide, by simp [evsOf, phNotified, phDone]⟩
        | doneNotified =>
          rw [show dcp Phase.doneNotified Phase.alive = 1 from by decide] at h
          obtain ⟨rfl, rfl⟩ :
              (⟨pack 0 0 2, 0, 0, Phase.doneNotified, Phase.doneQuiet⟩ : St) = s'
                ∧ [Ev.destroy, Ev.release] = evs := by
            simpa using h
          exact ⟨by unfold Inv; decide, by simp [evsOf, phNotified, phDone]⟩
      · rw [if_neg h2] at h
        have hpta : pt = Phase.alive := hpt.mpr (by omega)
        subst hpta
        rw [show dcp Phase.alive Phase.alive = 0 from by decide] at h
        obtain ⟨rfl, rfl⟩ :
            (⟨pack t 0 0, t, 0, Phase.alive, Phase.notifying⟩ : St) = s'
              ∧ ([] : List Ev) = evs := by
          simpa using h
        constructor
        · unfold Inv
          dsimp only
          refine ⟨rfl, ht, by omega, iff_of_true rfl (by omega), by decide,
            ?_, ?_, ?_, ?_⟩
          · exact fun hh => absurd hh.1 (by decide)
          · exact fun hh => absurd hh.2 (by decide)
          · exact fun hh => absurd hh (by decide)
          · exact fun hh => absurd hh (by decide)
        · simp [evsOf, phNotified, phDone]
    · simp only [if_neg h1] at h
      obtain ⟨rfl, rfl⟩ :
          (⟨pack t (r - 1) (dcp pt Phase.alive), t, r - 1, pt, Phase.alive⟩ : St) = s'
            ∧ ([] : List Ev) = evs := by
        simpa using h
      constructor
      · unfold Inv
        dsimp only
        exact ⟨rfl, ht, by omega, hpt, iff_of_true rfl (by omega), hG, hQQ,
          fun hh => by have := hQt hh; omega, hQr⟩
      · simp [evsOf]

theorem inc_drop_count_pack_tx (t d : Nat) (ht : t ≤ 2 ^ 30) (hd : d ≤ 2) :
    inc_drop_count (pack t 0 d) = (decide (t = 0 ∧ d = 1), pack t 0 (d + 1)) := by
  unfold inc_drop_count
  have h1 : (pack t 0 d + DC_INC) % U64 = pack t 0 (d + 1) := by
    unfold pack U64 DC_INC DC_SHIFT; omega
  have h2 : (pack t 0 d == 1) = (decide (t = 0 ∧ d = 1)) := by
    by_cases h : t = 0 ∧ d = 1
    · obtain ⟨h3, h4⟩ := h; subst h3; subst h4; decide
    · have hne : pack t 0 d ≠ 1 := by unfold pack; omega
      rw [decide_eq_false h, beq_eq_false_iff_ne.mpr hne]
  rw [h1, h2]

theorem cbT_sound (c t r : Nat) (pt pr : Phase) (s' : St) (evs : List Ev)
    (hI : Inv ⟨c, t, r, pt, pr⟩)
    (h : step ⟨c, t, r, pt, pr⟩ Lab.cbT = some (s', evs)) :
    Inv s' ∧ evsOf s' = evsOf ⟨c, t, r, pt, pr⟩ ++ evs := by
  obtain ⟨hc, ht, hr, hpt, hpr, hG, hQQ, hQt, hQr⟩ := hI
  dsimp only at hc ht hr hpt hpr hG hQQ hQt hQr
  simp only [step] at h
  split at h
  case isFalse => simp at h
  case isTrue hg =>
    subst hg
    obtain ⟨rfl, rfl⟩ :
        (⟨c, t, r, Phase.notified, pr⟩ : St) = s' ∧ [Ev.cbTx] = evs := by
      simpa using h
    have ht0 : t = 0 := by
      have : ¬ 1 ≤ t := fun hh => absurd (hpt.mpr hh) (by decide)
      omega
    have hgr : ¬ phG pr = true := fun hh => hG ⟨by decide, hh⟩
    have hprn : pr = Phase.alive ∨ pr = Phase.doneQuiet := by
      cases pr
      · exact Or.inl rfl
      · exact absurd (by decide) hgr
      · exact absurd (by decide) hgr
      · exact absurd (by decide) hgr
      · exact Or.inr rfl
    constructor
    · unfold Inv
      dsimp only
      refine ⟨hc, ht, hr, iff_of_false (by decide) (by omega), hpr,
        fun hh => hG ⟨by decide, hh.2⟩, fun hh => absurd hh.1 (by decide),
        fun hh => absurd hh (by decide), hQr⟩
    · rcases hprn with hh | hh <;> subst hh <;> simp [evsOf, phNotified, phDone]

theorem cbR_sound (c t r : Nat) (pt pr : Phase) (s' : St) (evs : List Ev)
    (hI : Inv ⟨c, t, r, pt, pr⟩)
    (h : step ⟨c, t, r, pt, pr⟩ Lab.cbR = some (s', evs)) :
    Inv s' ∧ evsOf s' = evsOf ⟨c, t, r, pt, pr⟩ ++ evs := by
  obtain ⟨hc, ht, hr, hpt, hpr, hG, hQQ, hQt, hQr⟩ := hI
  dsimp only at hc ht hr hpt hpr hG hQQ hQt hQr
  simp only [step] at h
  split at h
  case isFalse => simp at h
  case isTrue hg =>
    subst hg
    obtain ⟨rfl, rfl⟩ :
        (⟨c, t, r, pt, Phase.notified⟩ : St) = s' ∧ [Ev.cbRx] = evs := by
      simpa using h
    have hr0 : r = 0 := by
      have : ¬ 1 ≤ r := fun hh => absurd (hpr.mpr hh) (by decide)
      omega
    have hgt : ¬ phG pt = true := fun hh => hG ⟨hh, by decide⟩
    have hptn : pt = Phase.alive ∨ pt = Phase.doneQuiet := by
      cases pt
      · exact Or.inl rfl
      · exact absurd (by decide) hgt
      · exact absurd (by decide) hgt
      · exact absurd (by decide) hgt
      · exact Or.inr rfl
    constructor
    · unfold Inv
      dsimp only
      refine ⟨hc, ht, hr, hpt, iff_of_false (by decide) (by omega),
        fun hh => hG ⟨hh.1, by decide⟩, fun hh => absurd hh.2 (by decide),
        hQt, fun hh => absurd hh (by decide)⟩
    · rcases hptn with hh | hh <;> subst hh <;> simp [evsOf, phNotified, phDone]

theorem finT_sound (c t r : Nat) (pt pr : Phase) (s' : St) (evs : List Ev)
    (hI : Inv ⟨c, t, r, pt, pr⟩)
    (h : step ⟨c, t, r, pt, pr⟩ Lab.finT = some (s', evs)) :
    Inv s' ∧ evsOf s' = evsOf ⟨c, t, r, pt, pr⟩ ++ evs := by
  obtain ⟨hc, ht, hr, hpt, hpr, hG, hQQ, hQt, hQr⟩ := hI
  dsimp only at hc ht hr hpt hpr hG hQQ hQt hQr
  simp only [step] at h
  split at h
  case isFalse => simp at h
  case isTrue hg =>
    subst hg
    have ht0 : t = 0 := by
      have : ¬ 1 ≤ t := fun hh => absurd (hpt.mpr hh) (by decide)
      omega
    subst ht0
    have hgr : ¬ phG pr = true := fun hh => hG ⟨by decide, hh⟩
    have hprn : pr = Phase.alive ∨ pr = Phase.doneQuiet := by
      cases pr
      · exact Or.inl rfl
      · exact absurd (by decide) hgr
      · exact absurd (by decide) hgr
      · exact absurd (by decide) hgr
      · exact Or.inr rfl
    rcases hprn with hh | hh
    · subst hh
      rw [hc, show dcp Phase.notified Phase.alive = 0 from by decide,
        inc_drop_count_pack r 0 hr (by omega)] at h
      obtain ⟨rfl, rfl⟩ :
          (⟨pack 0 r 1, 0, r, Phase.doneNotified, Phase.alive⟩ : St) = s'
            ∧ ([] : List Ev) = evs := by
        simpa using h
      have hra : 1 ≤ r := hpr.mp rfl
      constructor
      · unfold Inv
        dsimp only
        refine ⟨rfl, by omega, hr, by decide, iff_of_true rfl (by omega),
          fun hh => absurd hh.2 (by decide), fun hh => absurd hh.1 (by decide),
          fun hh => absurd hh (by decide), fun hh => absurd hh (by decide)⟩
      · simp [evsOf, phNotified, phDone]
    · subst hh
      have hr0 : r = 0 := by
        have : ¬ 1 ≤ r := fun hh2 => absurd (hpr.mpr hh2) (by decide)
        omega
      subst hr0
      rw [hc, show dcp Phase.notified Phase.doneQuiet = 1 from by decide,
        inc_drop_count_pack 0 1 (by omega) (by omega)] at h
      obtain ⟨rfl, rfl⟩ :
          (⟨pack 0 0 2, 0, 0, Phase.doneNotified, Phase.doneQuiet⟩ : St) = s'
            ∧ [Ev.destroy, Ev.release] = evs := by
        simpa using h
      exact ⟨by unfold Inv; decide, by simp [evsOf, phNotified, phDone]⟩

theorem finR_sound (c t r : Nat) (pt pr : Phase) (s' : St) (evs : List Ev)
    (hI : Inv ⟨c, t, r, pt, pr⟩)
    (h : step ⟨c, t, r, pt, pr⟩ Lab.finR = some (s', evs)) :
    Inv s' ∧ evsOf s' = evsOf ⟨c, t, r, pt, pr⟩ ++ evs := by
  obtain ⟨hc, ht, hr, hpt, hpr, hG, hQQ, hQt, hQr⟩ := hI
  dsimp only at hc ht hr hpt hpr hG hQQ hQt hQr
  simp only [step] at h
  split at h
  case isFalse => simp at h
  case isTrue hg =>
    subst hg
    have hr0 : r = 0 := by
      have : ¬ 1 ≤ r := fun hh => absurd (hpr.mpr hh) (by decide)
      omega
    subst hr0
    have hgt : ¬ phG pt = true := fun hh => hG ⟨hh, by decide⟩
    have hptn : pt = Phase.alive ∨ pt = Phase.doneQuiet := by
      cases pt
      · exact Or.inl rfl
      · exact absurd (by decide) hgt
      · exact absurd (by decide) hgt
      · exact absurd (by decide) hgt
      · exact Or.inr rfl
    rcases hptn with hh | hh
    · subst hh
      rw [hc, show dcp Phase.alive Phase.notified = 0 from by decide,
        inc_drop_count_pack_tx t 0 ht (by omega)] at h
      obtain ⟨rfl, rfl⟩ :
          (⟨pack t 0 1, t, 0, Phase.alive, Phase.doneNotified⟩ : St) = s'
            ∧ ([] : List Ev) = evs := by
        simpa using h
      have hta : 1 ≤ t := hpt.mp rfl
      constructor
      · unfold Inv
        dsimp only
        refine ⟨rfl, ht, by omega, iff_of_true rfl (by omega), by decide,
          fun hh => absurd hh.1 (by decide), fun hh => absurd hh.2 (by decide),
          fun hh => absurd hh (by decide), fun hh => absurd hh (by decide)⟩
      · simp [evsOf, phNotified, phDone]
    · subst hh
      have ht0 : t = 0 := by
        have : ¬ 1 ≤ t := fun hh2 => absurd (hpt.mpr hh2) (by decide)
        omega
      subst ht0
      rw [hc, show dcp Phase.doneQuiet Phase.notified = 1 from by decide,
        inc_drop_count_pack_tx 0 1 (by omega) (by omega)] at h
      obtain ⟨rfl, rfl⟩ :
          (⟨pack 0 0 2, 0, 0, Phase.doneQuiet, Phase.doneNotified⟩ : St) = s'
            ∧ [Ev.destroy, Ev.release] = evs := by
        simpa using h
      exact ⟨by unfold Inv; decide, by simp [evsOf, phNotified, phDone]⟩

/-- Every enabled atomic step preserves the invariant, and the events it
emits are exactly the difference of the reconstructed histories. -/
theorem step_sound (s : St) (l : Lab) (s' : St) (evs : List Ev)
    (hI : Inv s) (h : step s l = some (s', evs)) :
    Inv s' ∧ evsOf s' = evsOf s ++ evs := by
  obtain ⟨c, t, r, pt, pr⟩ := s
  cases l
  · exact cloneT_sound c t r pt pr s' evs hI h
  · exact cloneR_sound c t r pt pr s' evs hI h
  · exact dropT_sound c t r pt pr s' evs hI h
  · exact dropR_sound c t r pt pr s' evs hI h
  · exact cbT_sound c t r pt pr s' evs hI h
  · exact cbR_sound c t r pt pr s' evs hI h
  · exact finT_sound c t r pt pr s' evs hI h
  · exact finR_sound c t r pt pr s' evs hI h

theorem run_sound (ls : List Lab) (s s' : St) (evs : List Ev)
    (hI : Inv s) (h : run s ls = some (s', evs)) :
    Inv s' ∧ evsOf s' = evsOf s ++ evs := by
  induction ls generalizing s s' evs with
  | nil =>
    simp only [run, Option.some.injEq, Prod.mk.injEq] at h
    obtain ⟨rfl, rfl⟩ := h
    exact ⟨hI, by simp⟩
  | cons l ls ih =>
    simp only [run] at h
    cases hs : step s l with
    | none => rw [hs] at h; simp at h
    | some p =>
      obtain ⟨s1, evs1⟩ := p
      rw [hs] at h
      dsimp only at h
      cases hrun : run s1 ls with
      | none => rw [hrun] at h; simp at h
      | some q =>
        obtain ⟨s2, evs2⟩ := q
        rw [hrun] at h
        simp only [Option.some.injEq, Prod.mk.injEq] at h
        obtain ⟨rfl, rfl⟩ := h
        obtain ⟨hI1, he1⟩ := step_sound s l s1 evs1 hI hs
        obtain ⟨hI2, he2⟩ := ih s1 _ evs2 hI1 hrun
        exact ⟨hI2, by rw [he2, he1, List.append_assoc]⟩

/-- Every state reachable from `stInit` satisfies the invariant, and the
event list of the run is exactly the history the state encodes. -/
theorem run_init_sound (ls : List Lab) (s : St) (evs : List Ev)
    (h : run stInit ls = some (s, evs)) : Inv s ∧ evs = evsOf s := by
  obtain ⟨hI, he⟩ := run_sound ls stInit s evs inv_init h
  refine ⟨hI, ?_⟩
  rw [he, show evsOf stInit = [] from rfl, List.nil_append]

theorem run_append (s : St) (ls1 ls2 : List Lab) :
    run s (ls1 ++ ls2) =
      match run s ls1 with
      | none => none
      | some (s1, evs1) =>
        match run s1 ls2 with
        | none => none
        | some (s2, evs2) => some (s2, evs1 ++ evs2) := by
  induction ls1 generalizing s with
  | nil =>
    simp only [List.nil_append, run]
    cases run s ls2 with
    | none => rfl
    | some q => obtain ⟨s2, evs2⟩ := q; simp
  | cons l ls1 ih =>
    simp only [List.cons_append, run]
    cases step s l with
    | none => rfl
    | some p =>
      obtain ⟨s1, evs1⟩ := p
      dsimp only
      rw [List.append_eq, ih s1]
      cases run s1 ls1 with
      | none => rfl
      | some q =>
        obtain ⟨s2, evs2⟩ := q
        dsimp only
        cases run s2 ls2 with
        | none => rfl
        | some q2 => obtain ⟨s3, evs3⟩ := q2; simp

/-- A single step from a state with no live tx handles leaves the tx handle
count at zero: a clone needs a live handle of its kind. -/
theorem step_t_zero (c r : Nat) (pt pr : Phase) (l : Lab) (s' : St) (evs : List Ev)
    (h : step ⟨c, 0, r, pt, pr⟩ l = some (s', evs)) : s'.t = 0 := by
  cases l
  case cloneT =>
    simp only [step] at h
    split at h
    case isTrue hg => exact absurd hg.1 (by omega)
    case isFalse => simp at h
  case dropT =>
    simp only [step] at h
    split at h
    case isTrue hg => exact absurd hg (by omega)
    case isFalse => simp at h
  all_goals
    simp only [step] at h
    split at h
    case isFalse => simp at h
    case isTrue =>
      simp only [Option.some.injEq, Prod.mk.injEq] at h
      obtain ⟨h1, -⟩ := h
      rw [← h1]

/-- A single step from a state with no live rx handles leaves the rx handle
count at zero. -/
theorem step_r_zero (c t : Nat) (pt pr : Phase) (l : Lab) (s' : St) (evs : List Ev)
    (h : step ⟨c, t, 0, pt, pr⟩ l = some (s', evs)) : s'.r = 0 := by
  cases l
  case cloneR =>
    simp only [step] at h
    split at h
    case isTrue hg => exact absurd hg.1 (by omega)
    case isFalse => simp at h
  case dropR =>
    simp only [step] at h
    split at h
    case isTrue hg => exact absurd hg (by omega)
    case isFalse => simp at h
  all_goals
    simp only [step] at h
    split at h
    case isFalse => simp at h
    case isTrue =>
      simp only [Option.some.injEq, Prod.mk.injEq] at h
      obtain ⟨h1, -⟩ := h
      rw [← h1]

/-- Once the tx count is zero it stays zero: no step can create a tx handle
out of nothing. -/
theorem t_stays_zero (ls : List Lab) (s s' : St) (evs : List Ev)
    (h : run s ls = some (s', evs)) (h0 : s.t = 0) : s'.t = 0 := by
  induction ls generalizing s evs with
  | nil =>
    simp only [run, Option.some.injEq, Prod.mk.injEq] at h
    obtain ⟨rfl, rfl⟩ := h
    exact h0
  | cons l ls ih =>
    simp only [run] at h
    cases hs : step s l with
    | none => rw [hs] at h; simp at h
    | some p =>
      obtain ⟨s1, evs1⟩ := p
      rw [hs] at h
      dsimp only at h
      cases hrun : run s1 ls with
      | none => rw [hrun] at h; simp at h
      | some q =>
        obtain ⟨s2, evs2⟩ := q
        rw [hrun] at h
        simp only [Option.some.injEq, Prod.mk.injEq] at h
        obtain ⟨rfl, rfl⟩ := h
        refine ih s1 evs2 hrun ?_
        obtain ⟨c, t, r, pt, pr⟩ := s
        dsimp only at h0
        subst h0
        exact step_t_zero c r pt pr l s1 evs1 hs

/-- Once the rx count is zero it stays zero. -/
theorem r_stays_zero (ls : List Lab) (s s' : St) (evs : List Ev)
    (h : run s ls = some (s', evs)) (h0 : s.r = 0) : s'.r = 0 := by
  induction ls generalizing s evs with
  | nil =>
    simp only [run, Option.some.injEq, Prod.mk.injEq] at h
    obtain ⟨rfl, rfl⟩ := h
    exact h0
  | cons l ls ih =>
    simp only [run] at h
    cases hs : step s l with
    | none => rw [hs] at h; simp at h
    | some p =>
      obtain ⟨s1, evs1⟩ := p
      rw [hs] at h
      dsimp only at h
      cases hrun : run s1 ls with
      | none => rw [hrun] at h; simp at h
      | some q =>
        obtain ⟨s2, evs2⟩ := q
        rw [hrun] at h
        simp only [Option.some.injEq, Prod.mk.injEq] at h
        obtain ⟨rfl, rfl⟩ := h
        refine ih s1 evs2 hrun ?_
        obtain ⟨c, t, r, pt, pr⟩ := s
        dsimp only at h0
        subst h0
        exact step_r_zero c t pt pr l s1 evs1 hs

/-- Event list of a complete execution: exactly one callback (the side that
was exhausted first, i.e. finished via the notify path), then the payload
destruction, then the memory release. -/
theorem complete_run_evs (ls : List Lab) (s : St) (evs : List Ev)
    (h : run stInit ls = some (s, evs)) (hC : Complete s) :
    (s.pt = Phase.doneNotified ∧ s.pr = Phase.doneQuiet
      ∧ evs = [Ev.cbTx, Ev.destroy, Ev.release])
    ∨ (s.pt = Phase.doneQuiet ∧ s.pr = Phase.doneNotified
      ∧ evs = [Ev.cbRx, Ev.destroy, Ev.release]) := by
  obtain ⟨hI, he⟩ := run_init_sound ls s evs h
  obtain ⟨hc, ht, hr, hpt, hpr, hG, hQQ, hQt, hQr⟩ := hI
  obtain ⟨ht0, hr0, hdt, hdr⟩ := hC
  rcases (phDone_iff s.pt).mp hdt with h1 | h1 <;>
    rcases (phDone_iff s.pr).mp hdr with h2 | h2
  · exact absurd ⟨by rw [h1]; decide, by rw [h2]; decide⟩ hG
  · left
    refine ⟨h1, h2, ?_⟩
    rw [he]
    simp [evsOf, h1, h2, phNotified, phDone]
  · right
    refine ⟨h1, h2, ?_⟩
    rw [he]
    simp [evsOf, h1, h2, phNotified, phDone]
  · exact absurd ⟨h1, h2⟩ hQQ

/-! Step-level extraction lemmas used for temporal reasoning about runs. -/

theorem step_dropT_keeps_r (s s' : St) (evs : List Ev)
    (h : step s Lab.dropT = some (s', evs)) : s'.r = s.r := by
  simp only [step] at h
  split at h
  case isFalse => simp at h
  case isTrue =>
    simp only [Option.some.injEq, Prod.mk.injEq] at h
    obtain ⟨h1, -⟩ := h
    rw [← h1]

theorem step_dropR_keeps_t (s s' : St) (evs : List Ev)
    (h : step s Lab.dropR = some (s', evs)) : s'.t = s.t := by
  simp only [step] at h
  split at h
  case isFalse => simp at h
  case isTrue =>
    simp only [Option.some.injEq, Prod.mk.injEq] at h
    obtain ⟨h1, -⟩ := h
    rw [← h1]

/-- If a step takes the tx handle count from nonzero to zero, it is the drop
of the last tx handle. -/
theorem step_t_change (c t r : Nat) (pt pr : Phase) (l : Lab) (s' : St) (evs : List Ev)
    (h : step ⟨c, t, r, pt, pr⟩ l = some (s', evs)) (h0 : s'.t = 0) (h1 : 1 ≤ t) :
    l = Lab.dropT ∧ t = 1 := by
  cases l
  case dropT =>
    refine ⟨rfl, ?_⟩
    simp only [step] at h
    rw [if_pos h1] at h
    simp only [Option.some.injEq, Prod.mk.injEq] at h
    obtain ⟨h2, -⟩ := h
    rw [← h2] at h0
    dsimp only at h0
    omega
  all_goals
    exfalso
    simp only [step] at h
    split at h
    case isFalse => simp at h
    case isTrue =>
      simp only [Option.some.injEq, Prod.mk.injEq] at h
      obtain ⟨h2, -⟩ := h
      rw [← h2] at h0
      dsimp only at h0
      omega

/-- Mirror image of `step_t_change` for the rx handle count. -/
theorem step_r_change (c t r : Nat) (pt pr : Phase) (l : Lab) (s' : St) (evs : List Ev)
    (h : step ⟨c, t, r, pt, pr⟩ l = some (s', evs)) (h0 : s'.r = 0) (h1 : 1 ≤ r) :
    l = Lab.dropR ∧ r = 1 := by
  cases l
  case dropR =>
    refine ⟨rfl, ?_⟩
    simp only [step] at h
    rw [if_pos h1] at h
    simp only [Option.some.injEq, Prod.mk.injEq] at h
    obtain ⟨h2, -⟩ := h
    rw [← h2] at h0
    dsimp only at h0
    omega
  all_goals
    exfalso
    simp only [step] at h
    split at h
    case isFalse => simp at h
    case isTrue =>
      simp only [Option.some.injEq, Prod.mk.injEq] at h
      obtain ⟨h2, -⟩ := h
      rw [← h2] at h0
      dsimp only at h0
      omega

/-- Once the tx side is on the notify path, it stays on it. -/
theorem step_gpersistT (s : St) (l : Lab) (s' : St) (evs : List Ev)
    (hI : Inv s) (h : step s l = some (s', evs)) (hg : phG s.pt = true) :
    phG s'.pt = true := by
  obtain ⟨c, t, r, pt, pr⟩ := s
  obtain ⟨hc, ht, hr, hpt, hpr, hG, hQQ, hQt, hQr⟩ := hI
  dsimp only at hc ht hr hpt hpr hG hQQ hQt hQr hg
  have ht0 : t = 0 := by
    have : ¬ 1 ≤ t := fun hh => by rw [hpt.mpr hh] at hg; exact absurd hg (by decide)
    omega
  cases l
  case cloneT =>
    simp only [step] at h
    split at h
    case isTrue hgd => exact absurd hgd.1 (by omega)
    case isFalse => simp at h
  case dropT =>
    simp only [step] at h
    split at h
    case isTrue hgd => exact absurd hgd (by omega)
    case isFalse => simp at h
  case cbT =>
    simp only [step] at h
    split at h
    case isFalse => simp at h
    case isTrue hgd =>
      simp only [Option.some.injEq, Prod.mk.injEq] at h
      obtain ⟨h1, -⟩ := h
      rw [← h1]
      rfl
  case finT =>
    simp only [step] at h
    split at h
    case isFalse => simp at h
    case isTrue hgd =>
      simp only [Option.some.injEq, Prod.mk.injEq] at h
      obtain ⟨h1, -⟩ := h
      rw [← h1]
      rfl
  all_goals
    simp only [step] at h
    split at h
    case isFalse => simp at h
    case isTrue =>
      simp only [Option.some.injEq, Prod.mk.injEq] at h
      obtain ⟨h1, -⟩ := h
      rw [← h1]
      exact hg

/-- Once the rx side is on the notify path, it stays on it. -/
theorem step_gpersistR (s : St) (l : Lab) (s' : St) (evs : List Ev)
    (hI : Inv s) (h : step s l = some (s', evs)) (hg : phG s.pr = true) :
    phG s'.pr = true := by
  obtain ⟨c, t, r, pt, pr⟩ := s
  obtain ⟨hc, ht, hr, hpt, hpr, hG, hQQ, hQt, hQr⟩ := hI
  dsimp only at hc ht hr hpt hpr hG hQQ hQt hQr hg
  have hr0 : r = 0 := by
    have : ¬ 1 ≤ r := fun hh => by rw [hpr.mpr hh] at hg; exact absurd hg (by decide)
    omega
  cases l
  case cloneR =>
    simp only [step] at h
    split at h
    case isTrue hgd => exact absurd hgd.1 (by omega)
    case isFalse => simp at h
  case dropR =>
    simp only [step] at h
    split at h
    case isTrue hgd => exact absurd hgd (by omega)
    case isFalse => simp at h
  case cbR =>
    simp only [step] at h
    split at h
    case isFalse => simp at h
    case isTrue hgd =>
      simp only [Option.some.injEq, Prod.mk.injEq] at h
      obtain ⟨h1, -⟩ := h
      rw [← h1]
      rfl
  case finR =>
    simp only [step] at h
    split at h
    case isFalse => simp at h
    case isTrue hgd =>
      simp only [Option.some.injEq, Prod.mk.injEq] at h
      obtain ⟨h1, -⟩ := h
      rw [← h1]
      rfl
  all_goals
    simp only [step] at h
    split at h
    case isFalse => simp at h
    case isTrue =>
      simp only [Option.some.injEq, Prod.mk.injEq] at h
      obtain ⟨h1, -⟩ := h
      rw [← h1]
      exact hg

theorem gpath_persistsT (ls : List Lab) (s s' : St) (evs : List Ev)
    (hI : Inv s) (h : run s ls = some (s', evs)) (hg : phG s.pt = true) :
    phG s'.pt = true := by
  induction ls generalizing s evs with
  | nil =>
    simp only [run, Option.some.injEq, Prod.mk.injEq] at h
    obtain ⟨rfl, rfl⟩ := h
    exact hg
  | cons l ls ih =>
    simp only [run] at h
    cases hs : step s l with
    | none => rw [hs] at h; simp at h
    | some p =>
      obtain ⟨s1, evs1⟩ := p
      rw [hs] at h
      dsimp only at h
      cases hrun : run s1 ls with
      | none => rw [hrun] at h; simp at h
      | some q =>
        obtain ⟨s2, evs2⟩ := q
        rw [hrun] at h
        simp only [Option.some.injEq, Prod.mk.injEq] at h
        obtain ⟨rfl, rfl⟩ := h
        exact ih s1 evs2 (step_sound s l s1 evs1 hI hs).1 hrun
          (step_gpersistT s l s1 evs1 hI hs hg)

theorem gpath_persistsR (ls : List Lab) (s s' : St) (evs : List Ev)
    (hI : Inv s) (h : run s ls = some (s', evs)) (hg : phG s.pr = true) :
    phG s'.pr = true := by
  induction ls generalizing s evs with
  | nil =>
    simp only [run, Option.some.injEq, Prod.mk.injEq] at h
    obtain ⟨rfl, rfl⟩ := h
    exact hg
  | cons l ls ih =>
    simp only [run] at h
    cases hs : step s l with
    | none => rw [hs] at h; simp at h
    | some p =>
      obtain ⟨s1, evs1⟩ := p
      rw [hs] at h
      dsimp only at h
      cases hrun : run s1 ls with
      | none => rw [hrun] at h; simp at h
      | some q =>
        obtain ⟨s2, evs2⟩ := q
        rw [hrun] at h
        simp only [Option.some.injEq, Prod.mk.injEq] at h
        obtain ⟨rfl, rfl⟩ := h
        exact ih s1 evs2 (step_sound s l s1 evs1 hI hs).1 hrun
          (step_gpersistR s l s1 evs1 hI hs hg)

/-- The only step that newly puts the tx side on the notify path is the drop
of the last tx handle while at least one rx handle is alive. -/
theorem step_gpath_newT (s : St) (l : Lab) (s' : St) (evs : List Ev)
    (hI : Inv s) (h : step s l = some (s', evs)) (hg : phG s'.pt = true) :
    phG s.pt = true ∨ (l = Lab.dropT ∧ s.t = 1 ∧ 1 ≤ s.r) := by
  obtain ⟨c, t, r, pt, pr⟩ := s
  obtain ⟨hc, ht, hr, hpt, hpr, hG, hQQ, hQt, hQr⟩ := hI
  dsimp only at hc ht hr hpt hpr hG hQQ hQt hQr ⊢
  cases l
  case cbT =>
    simp only [step] at h
    split at h
    case isFalse => simp at h
    case isTrue hgd => exact Or.inl (by rw [hgd]; decide)
  case finT =>
    simp only [step] at h
    split at h
    case isFalse => simp at h
    case isTrue hgd => exact Or.inl (by rw [hgd]; decide)
  case dropT =>
    simp only [step] at h
    split at h
    case isFalse => simp at h
    case isTrue hg1 =>
      have hdle := dcp_le pt pr
      have hpta : pt = Phase.alive := hpt.mpr hg1
      subst hpta
      rw [hc, dec_tx_pack t r _ hg1 ht hr hdle] at h
      by_cases h1 : t = 1
      · subst h1
        by_cases h2 : r = 0
        · subst h2
          exfalso
          by_cases h3 : dcp Phase.alive pr = 0
          · rw [if_pos rfl, if_pos rfl, if_pos h3] at h
            obtain ⟨h4, -⟩ :
                (⟨pack 0 0 1, 0, 0, Phase.doneQuiet, pr⟩ : St) = s'
                  ∧ ([] : List Ev) = evs := by simpa using h
            rw [← h4] at hg
            dsimp only at hg
            exact absurd hg (by decide)
          · rw [if_pos rfl, if_pos rfl, if_neg h3] at h
            obtain ⟨h4, -⟩ :
                (⟨pack 0 0 (dcp Phase.alive pr + 1), 0, 0, Phase.doneQuiet, pr⟩ : St) = s'
                  ∧ [Ev.destroy, Ev.release] = evs := by simpa using h
            rw [← h4] at hg
            dsimp only at hg
            exact absurd hg (by decide)
        · exact Or.inr ⟨rfl, rfl, by omega⟩
      · simp only [if_neg h1] at h
        obtain ⟨h4, -⟩ :
            (⟨pack (t - 1) r (dcp Phase.alive pr), t - 1, r, Phase.alive, pr⟩ : St) = s'
              ∧ ([] : List Ev) = evs := by simpa using h
        rw [← h4] at hg
        dsimp only at hg
        exact absurd hg (by decide)
  all_goals
    simp only [step] at h
    split at h
    case isFalse => simp at h
    case isTrue =>
      simp only [Option.some.injEq, Prod.mk.injEq] at h
      obtain ⟨h1, -⟩ := h
      rw [← h1] at hg
      exact Or.inl hg

/-- Mirror image of `step_gpath_newT` for the rx side. -/
theorem step_gpath_newR (s : St) (l : Lab) (s' : St) (evs : List Ev)
    (hI : Inv s) (h : step s l = some (s', evs)) (hg : phG s'.pr = true) :
    phG s.pr = true ∨ (l = Lab.dropR ∧ s.r = 1 ∧ 1 ≤ s.t) := by
  obtain ⟨c, t, r, pt, pr⟩ := s
  obtain ⟨hc, ht, hr, hpt, hpr, hG, hQQ, hQt, hQr⟩ := hI
  dsimp only at hc ht hr hpt hpr hG hQQ hQt hQr ⊢
  cases l
  case cbR =>
    simp only [step] at h
    split at h
    case isFalse => simp at h
    case isTrue hgd => exact Or.inl (by rw [hgd]; decide)
  case finR =>
    simp only [step] at h
    split at h
    case isFalse => simp at h
    case isTrue hgd => exact Or.inl (by rw [hgd]; decide)
  case dropR =>
    simp only [step] at h
    split at h
    case isFalse => simp at h
    case isTrue hg1 =>
      have hdle := dcp_le pt pr
      have hpra : pr = Phase.alive := hpr.mpr hg1
      subst hpra
      rw [hc, dec_rx_pack t r _ hg1 ht hr hdle] at h
      by_cases h1 : r = 1
      · subst h1
        by_cases h2 : t = 0
        · subst h2
          exfalso
          by_cases h3 : dcp pt Phase.alive = 0
          · rw [if_pos rfl, if_pos rfl, if_pos h3] at h
            obtain ⟨h4, -⟩ :
                (⟨pack 0 0 1, 0, 0, pt, Phase.doneQuiet⟩ : St) = s'
                  ∧ ([] : List Ev) = evs := by simpa using h
            rw [← h4] at hg
            dsimp only at hg
            exact absurd hg (by decide)
          · rw [if_pos rfl, if_pos rfl, if_neg h3] at h
            obtain ⟨h4, -⟩ :
                (⟨pack 0 0 (dcp pt Phase.alive + 1), 0, 0, pt, Phase.doneQuiet⟩ : St) = s'
                  ∧ [Ev.destroy, Ev.release] = evs := by simpa using h
            rw [← h4] at hg
            dsimp only at hg
            exact absurd hg (by decide)
        · exact Or.inr ⟨rfl, rfl, by omega⟩
      · simp only [if_neg h1] at h
        obtain ⟨h4, -⟩ :
            (⟨pack t (r - 1) (dcp pt Phase.alive), t, r - 1, pt, Phase.alive⟩ : St) = s'
              ∧ ([] : List Ev) = evs := by simpa using h
        rw [← h4] at hg
        dsimp only at hg
        exact absurd hg (by decide)
  all_goals
    simp only [step] at h
    split at h
    case isFalse => simp at h
    case isTrue =>
      simp only [Option.some.injEq, Prod.mk.injEq] at h
      obtain ⟨h1, -⟩ := h
      rw [← h1] at hg
      exact Or.inl hg

/-- If a run ends with the tx side on the notify path, either it started
there, or somewhere in the schedule the last tx handle was dropped while an
rx handle was alive. -/
theorem gpath_originT (ls : List Lab) (s0 s : St) (evs : List Ev)
    (hI : Inv s0) (h : run s0 ls = some (s, evs)) (hg : phG s.pt = true) :
    phG s0.pt = true ∨
      ∃ l1 l2 s1 evs1, ls = l1 ++ Lab.dropT :: l2 ∧ run s0 l1 = some (s1, evs1)
        ∧ s1.t = 1 ∧ 1 ≤ s1.r := by
  induction ls generalizing s0 evs with
  | nil =>
    simp only [run, Option.some.injEq, Prod.mk.injEq] at h
    obtain ⟨rfl, rfl⟩ := h
    exact Or.inl hg
  | cons l ls ih =>
    simp only [run] at h
    cases hs : step s0 l with
    | none => rw [hs] at h; simp at h
    | some p =>
      obtain ⟨s1, evs1⟩ := p
      rw [hs] at h
      dsimp only at h
      cases hrun : run s1 ls with
      | none => rw [hrun] at h; simp at h
      | some q =>
        obtain ⟨s2, evs2⟩ := q
        rw [hrun] at h
        simp only [Option.some.injEq, Prod.mk.injEq] at h
        obtain ⟨rfl, rfl⟩ := h
        rcases ih s1 evs2 (step_sound s0 l s1 evs1 hI hs).1 hrun with hg1 | hsplit
        · rcases step_gpath_newT s0 l s1 evs1 hI hs hg1 with hg0 | ⟨rfl, hT, hR⟩
          · exact Or.inl hg0
          · exact Or.inr ⟨[], ls, s0, [], rfl, rfl, hT, hR⟩
        · obtain ⟨l1, l2, sm, evsm, hsp, hr1, hT, hR⟩ := hsplit
          refine Or.inr ⟨l :: l1, l2, sm, evs1 ++ evsm, by rw [hsp, List.cons_append], ?_, hT, hR⟩
          simp [run, hs, hr1]

/-- Mirror image of `gpath_originT`. -/
theorem gpath_originR (ls : List Lab) (s0 s : St) (evs : List Ev)
    (hI : Inv s0) (h : run s0 ls = some (s, evs)) (hg : phG s.pr = true) :
    phG s0.pr = true ∨
      ∃ l1 l2 s1 evs1, ls = l1 ++ Lab.dropR :: l2 ∧ run s0 l1 = some (s1, evs1)
        ∧ s1.r = 1 ∧ 1 ≤ s1.t := by
  induction ls generalizing s0 evs with
  | nil =>
    simp only [run, Option.some.injEq, Prod.mk.injEq] at h
    obtain ⟨rfl, rfl⟩ := h
    exact Or.inl hg
  | cons l ls ih =>
    simp only [run] at h
    cases hs : step s0 l with
    | none => rw [hs] at h; simp at h
    | some p =>
      obtain ⟨s1, evs1⟩ := p
      rw [hs] at h
      dsimp only at h
      cases hrun : run s1 ls with
      | none => rw [hrun] at h; simp at h
      | some q =>
        obtain ⟨s2, evs2⟩ := q
        rw [hrun] at h
        simp only [Option.some.injEq, Prod.mk.injEq] at h
        obtain ⟨rfl, rfl⟩ := h
        rcases ih s1 evs2 (step_sound s0 l s1 evs1 hI hs).1 hrun with hg1 | hsplit
        · rcases step_gpath_newR s0 l s1 evs1 hI hs hg1 with hg0 | ⟨rfl, hR, hT⟩
          · exact Or.inl hg0
          · exact Or.inr ⟨[], ls, s0, [], rfl, rfl, hR, hT⟩
        · obtain ⟨l1, l2, sm, evsm, hsp, hr1, hR, hT⟩ := hsplit
          refine Or.inr ⟨l :: l1, l2, sm, evs1 ++ evsm, by rw [hsp, List.cons_append], ?_, hR, hT⟩
          simp [run, hs, hr1]

/-- A run that takes the tx handle count from nonzero to zero contains the
drop of the last tx handle. -/
theorem txDrop_extract (ls : List Lab) (s0 s : St) (evs : List Ev)
    (h : run s0 ls = some (s, evs)) (h1 : 1 ≤ s0.t) (h0 : s.t = 0) :
    ∃ l1 l2 s1 evs1, ls = l1 ++ Lab.dropT :: l2 ∧ run s0 l1 = some (s1, evs1)
      ∧ s1.t = 1 := by
  induction ls generalizing s0 evs with
  | nil =>
    simp only [run, Option.some.injEq, Prod.mk.injEq] at h
    obtain ⟨rfl, rfl⟩ := h
    omega
  | cons l ls ih =>
    simp only [run] at h
    cases hs : step s0 l with
    | none => rw [hs] at h; simp at h
    | some p =>
      obtain ⟨s1, evs1⟩ := p
      rw [hs] at h
      dsimp only at h
      cases hrun : run s1 ls with
      | none => rw [hrun] at h; simp at h
      | some q =>
        obtain ⟨s2, evs2⟩ := q
        rw [hrun] at h
        simp only [Option.some.injEq, Prod.mk.injEq] at h
        obtain ⟨rfl, rfl⟩ := h
        by_cases hz : s1.t = 0
        · obtain ⟨c, t, r, pt, pr⟩ := s0
          dsimp only at h1
          obtain ⟨rfl, hT1⟩ := step_t_change c t r pt pr l s1 evs1 hs hz h1
          exact ⟨[], ls, ⟨c, t, r, pt, pr⟩, [], rfl, rfl, hT1⟩
        · obtain ⟨l1, l2, sm, evsm, hsp, hr1, hT⟩ :=
            ih s1 evs2 hrun (by omega)
          refine ⟨l :: l1, l2, sm, evs1 ++ evsm, by rw [hsp, List.cons_append], ?_, hT⟩
          simp [run, hs, hr1]

/-- Mirror image of `txDrop_extract`. -/
theorem rxDrop_extract (ls : List Lab) (s0 s : St) (evs : List Ev)
    (h : run s0 ls = some (s, evs)) (h1 : 1 ≤ s0.r) (h0 : s.r = 0) :
    ∃ l1 l2 s1 evs1, ls = l1 ++ Lab.dropR :: l2 ∧ run s0 l1 = some (s1, evs1)
      ∧ s1.r = 1 := by
  induction ls generalizing s0 evs with
  | nil =>
    simp only [run, Option.some.injEq, Prod.mk.injEq] at h
    obtain ⟨rfl, rfl⟩ := h
    omega
  | cons l ls ih =>
    simp only [run] at h
    cases hs : step s0 l with
    | none => rw [hs] at h; simp at h
    | some p =>
      obtain ⟨s1, evs1⟩ := p
      rw [hs] at h
      dsimp only at h
      cases hrun : run s1 ls with
      | none => rw [hrun] at h; simp at h
      | some q =>
        obtain ⟨s2, evs2⟩ := q
        rw [hrun] at h
        simp only [Option.some.injEq, Prod.mk.injEq] at h
        obtain ⟨rfl, rfl⟩ := h
        by_cases hz : s1.r = 0
        · obtain ⟨c, t, r, pt, pr⟩ := s0
          dsimp only at h1
          obtain ⟨rfl, hR1⟩ := step_r_change c t r pt pr l s1 evs1 hs hz h1
          exact ⟨[], ls, ⟨c, t, r, pt, pr⟩, [], rfl, rfl, hR1⟩
        · obtain ⟨l1, l2, sm, evsm, hsp, hr1, hR⟩ :=
            ih s1 evs2 hrun (by omega)
          refine ⟨l :: l1, l2, sm, evs1 ++ evsm, by rw [hsp, List.cons_append], ?_, hR⟩
          simp [run, hs, hr1]

/-- The two last drops cannot both observe the other side already empty:
whichever of them commits first still sees a live handle of the other kind.
Formally, a schedule cannot contain both a last-tx-drop performed with the
rx count already zero and a last-rx-drop performed with the tx count already
zero. -/
theorem drops_ordered (l1 l2 m1 m2 : List Lab) (s1 u1 : St) (e1 f1 : List Ev)
    (heq : l1 ++ Lab.dropT :: l2 = m1 ++ Lab.dropR :: m2)
    (hr1 : run stInit l1 = some (s1, e1)) (hr2 : run stInit m1 = some (u1, f1))
    (hs1t : s1.t = 1) (hs1r : s1.r = 0) (hu1t : u1.t = 0) (hu1r : u1.r = 1) :
    False := by
  rcases List.append_eq_append_iff.mp heq with ⟨a, ha1, ha2⟩ | ⟨a, ha1, ha2⟩
  · cases a with
    | nil => simp at ha2
    | cons x xs =>
      obtain ⟨rfl, -⟩ : Lab.dropT = x ∧ l2 = xs ++ Lab.dropR :: m2 := by
        simpa using ha2
      subst ha1
      rw [run_append, hr1] at hr2
      dsimp only at hr2
      simp only [run] at hr2
      cases hstep : step s1 Lab.dropT with
      | none => rw [hstep] at hr2; simp at hr2
      | some p =>
        obtain ⟨s2, e2⟩ := p
        rw [hstep] at hr2
        dsimp only at hr2
        cases hrest : run s2 xs with
        | none => rw [hrest] at hr2; simp at hr2
        | some q =>
          obtain ⟨s3, e3⟩ := q
          rw [hrest] at hr2
          simp only [Option.some.injEq, Prod.mk.injEq] at hr2
          obtain ⟨⟨rfl, -⟩, -⟩ := hr2
          have h2r : s2.r = 0 := by rw [step_dropT_keeps_r s1 s2 e2 hstep, hs1r]
          have := r_stays_zero xs s2 u1 e3 hrest h2r
          omega
  · cases a with
    | nil => simp at ha2
    | cons x xs =>
      obtain ⟨rfl, -⟩ : Lab.dropR = x ∧ m2 = xs ++ Lab.dropT :: l2 := by
        simpa using ha2
      subst ha1
      rw [run_append, hr2] at hr1
      dsimp only at hr1
      simp only [run] at hr1
      cases hstep : step u1 Lab.dropR with
      | none => rw [hstep] at hr1; simp at hr1
      | some p =>
        obtain ⟨s2, e2⟩ := p
        rw [hstep] at hr1
        dsimp only at hr1
        cases hrest : run s2 xs with
        | none => rw [hrest] at hr1; simp at hr1
        | some q =>
          obtain ⟨s3, e3⟩ := q
          rw [hrest] at hr1
          simp only [Option.some.injEq, Prod.mk.injEq] at hr1
          obtain ⟨⟨rfl, -⟩, -⟩ := hr1
          have h2t : s2.t = 0 := by rw [step_dropR_keeps_t u1 s2 e2 hstep, hu1t]
          have := t_stays_zero xs s2 s1 e3 hrest h2t
          omega

/-! The `Notify` trait (src/lib.rs lines 29-63) and the two allocation entry
points `new` (lines 424-441) and `pin` (lines 443-452).  A `Notify`
implementation is a record of the four callbacks acting on an observer state
`E`; the field defaults mirror the Rust default method bodies: the ordinary
callbacks default to no-ops and the pinned variants default to delegating to
the ordinary ones. -/

structure NotifyImpl (E : Type) where
  lastTxDidDrop : E → E := id
  lastRxDidDrop : E → E := id
  lastTxDidDropPinned : E → E := lastTxDidDrop
  lastRxDidDropPinned : E → E := lastRxDidDrop

/-- `impl Drop for Tx`/`Rx` invoke the PINNED callback variants
(`last_tx_did_drop_pinned` at line 293, `last_rx_did_drop_pinned` at line
364), for handles made by `new` and by `pin` alike. -/
def notifyEv (E : Type) (n : NotifyImpl E) : Ev → E → E
  | Ev.cbTx => n.lastTxDidDropPinned
  | Ev.cbRx => n.lastRxDidDropPinned
  | Ev.destroy => id
  | Ev.release => id

/-- The allocation made by `new`: counter word `RC_INIT`, one live `Tx`, one
live `Rx`, plus the payload. -/
structure Alloc (E : Type) where
  st : St
  data : E

def new (E : Type) (d : E) : Alloc E := ⟨stInit, d⟩

/-- `Pin<_>` wrapper: `Pin::new_unchecked` adds no runtime content. -/
structure Pinned (α : Type) where
  get : α

/-- `pin` simply calls `new` and wraps both halves in `Pin::new_unchecked`. -/
def pin (E : Type) (d : E) : Pinned (Alloc E) := ⟨new E d⟩

/-! Clone-then-drop round trips (for the algebraic claim). -/

def cloneDropT : Nat → List Lab
  | 0 => []
  | n + 1 => Lab.cloneT :: Lab.dropT :: cloneDropT n

def cloneDropR : Nat → List Lab
  | 0 => []
  | n + 1 => Lab.cloneR :: Lab.dropR :: cloneDropR n

theorem cycleT_once (c t r : Nat) (pt pr : Phase) (ls : List Lab)
    (hI : Inv ⟨c, t, r, pt, pr⟩) (h1 : 1 ≤ t) (h2 : t < 2 ^ 30) :
    run ⟨c, t, r, pt, pr⟩ (Lab.cloneT :: Lab.dropT :: ls) =
      run ⟨c, t, r, pt, pr⟩ ls := by
  obtain ⟨hc, ht, hr, hpt, hpr, hG, hQQ, hQt, hQr⟩ := hI
  dsimp only at hc ht hr hpt hpr
  have hdle := dcp_le pt pr
  have htx : tx_count c = t := by
    rw [hc]; exact tx_count_pack _ _ _ ht hr (by omega)
  have hw1 : (c + TX_INC) % U64 = pack (t + 1) r (dcp pt pr) := by
    rw [hc]; exact pack_add_tx _ _ _ (by omega) hr (by omega)
  have hstep1 : step ⟨c, t, r, pt, pr⟩ Lab.cloneT =
      some (⟨pack (t + 1) r (dcp pt pr), t + 1, r, pt, pr⟩, []) := by
    simp only [step]
    rw [if_pos ⟨h1, by rw [htx, OVERFLOW_PANIC_eq]; omega⟩, hw1]
  have hstep2 : step ⟨pack (t + 1) r (dcp pt pr), t + 1, r, pt, pr⟩ Lab.dropT =
      some (⟨pack t r (dcp pt pr), t, r, pt, pr⟩, []) := by
    simp only [step]
    rw [if_pos (by omega : 1 ≤ t + 1)]
    rw [dec_tx_pack (t + 1) r _ (by omega) (by omega) hr hdle]
    simp only [if_neg (show ¬ t + 1 = 1 by omega)]
    simp
  simp only [run, hstep1, hstep2]
  rw [← hc]
  cases run ⟨c, t, r, pt, pr⟩ ls with
  | none => rfl
  | some q => obtain ⟨s2, evs2⟩ := q; simp

theorem cycleR_once (c t r : Nat) (pt pr : Phase) (ls : List Lab)
    (hI : Inv ⟨c, t, r, pt, pr⟩) (h1 : 1 ≤ r) (h2 : r < 2 ^ 30) :
    run ⟨c, t, r, pt, pr⟩ (Lab.cloneR :: Lab.dropR :: ls) =
      run ⟨c, t, r, pt, pr⟩ ls := by
  obtain ⟨hc, ht, hr, hpt, hpr, hG, hQQ, hQt, hQr⟩ := hI
  dsimp only at hc ht hr hpt hpr
  have hdle := dcp_le pt pr
  have hrx : rx_count c = r := by
    rw [hc]; exact rx_count_pack _ _ _ ht hr (by omega)
  have hw1 : (c + RX_INC) % U64 = pack t (r + 1) (dcp pt pr) := by
    rw [hc]; exact pack_add_rx _ _ _ ht (by omega) (by omega)
  have hstep1 : step ⟨c, t, r, pt, pr⟩ Lab.cloneR =
      some (⟨pack t (r + 1) (dcp pt pr), t, r + 1, pt, pr⟩, []) := by
    simp only [step]
    rw [if_pos ⟨h1, by rw [hrx, OVERFLOW_PANIC_eq]; omega⟩, hw1]
  have hstep2 : step ⟨pack t (r + 1) (dcp pt pr), t, r + 1, pt, pr⟩ Lab.dropR =
      some (⟨pack t r (dcp pt pr), t, r, pt, pr⟩, []) := by
    simp only [step]
    rw [if_pos (by omega : 1 ≤ r + 1)]
    rw [dec_rx_pack t (r + 1) _ (by omega) ht (by omega) hdle]
    simp only [if_neg (show ¬ r + 1 = 1 by omega)]
    simp
  simp only [run, hstep1, hstep2]
  rw [← hc]
  cases run ⟨c, t, r, pt, pr⟩ ls with
  | none => rfl
  | some q => obtain ⟨s2, evs2⟩ := q; simp

theorem run_cloneDropT (n : Nat) (c t r : Nat) (pt pr : Phase)
    (hI : Inv ⟨c, t, r, pt, pr⟩) (h1 : 1 ≤ t) (h2 : t < 2 ^ 30) :
    run ⟨c, t, r, pt, pr⟩ (cloneDropT n) = some (⟨c, t, r, pt, pr⟩, []) := by
  induction n with
  | zero => rfl
  | succ n ih =>
    rw [show cloneDropT (n + 1) = Lab.cloneT :: Lab.dropT :: cloneDropT n from rfl,
      cycleT_once c t r pt pr (cloneDropT n) hI h1 h2]
    exact ih

theorem run_cloneDropR (n : Nat) (c t r : Nat) (pt pr : Phase)
    (hI : Inv ⟨c, t, r, pt, pr⟩) (h1 : 1 ≤ r) (h2 : r < 2 ^ 30) :
    run ⟨c, t, r, pt, pr⟩ (cloneDropR n) = some (⟨c, t, r, pt, pr⟩, []) := by
  induction n with
  | zero => rfl
  | succ n ih =>
    rw [show cloneDropR (n + 1) = Lab.cloneR :: Lab.dropR :: cloneDropR n from rfl,
      cycleR_once c t r pt pr (cloneDropR n) hI h1 h2]
    exact ih

/-- The phase automaton of each side: `alive → notifying → notified →
doneNotified` with a shortcut `alive → doneQuiet`, and a single step advances
at most one of the two sides. -/
theorem step_phase_rel (s : St) (l : Lab) (s' : St) (evs : List Ev)
    (hI : Inv s) (h : step s l = some (s', evs)) :
    (s'.pt = s.pt
      ∨ (s.pt = Phase.alive ∧ (s'.pt = Phase.notifying ∨ s'.pt = Phase.doneQuiet))
      ∨ (s.pt = Phase.notifying ∧ s'.pt = Phase.notified)
      ∨ (s.pt = Phase.notified ∧ s'.pt = Phase.doneNotified))
    ∧ (s'.pr = s.pr
      ∨ (s.pr = Phase.alive ∧ (s'.pr = Phase.notifying ∨ s'.pr = Phase.doneQuiet))
      ∨ (s.pr = Phase.notifying ∧ s'.pr = Phase.notified)
      ∨ (s.pr = Phase.notified ∧ s'.pr = Phase.doneNotified))
    ∧ (s'.pt = s.pt ∨ s'.pr = s.pr) := by
  obtain ⟨c, t, r, pt, pr⟩ := s
  obtain ⟨hc, ht, hr, hpt, hpr, hG, hQQ, hQt, hQr⟩ := hI
  dsimp only at hc ht hr hpt hpr hG hQQ hQt hQr ⊢
  cases l
  case dropT =>
    simp only [step] at h
    split at h
    case isFalse => simp at h
    case isTrue hg1 =>
      have hpta : pt = Phase.alive := hpt.mpr hg1
      subst hpta
      simp only [Option.some.injEq, Prod.mk.injEq] at h
      obtain ⟨h1, -⟩ := h
      rw [← h1]
      dsimp only
      by_cases h2 : t = 1
      · rw [if_pos h2]
        by_cases h3 : (dec_tx c).1 = DecrementAction.notify
        · rw [if_pos h3]
          exact ⟨Or.inr (Or.inl ⟨rfl, Or.inl rfl⟩), Or.inl rfl, Or.inr rfl⟩
        · rw [if_neg h3]
          exact ⟨Or.inr (Or.inl ⟨rfl, Or.inr rfl⟩), Or.inl rfl, Or.inr rfl⟩
      · rw [if_neg h2]
        exact ⟨Or.inl rfl, Or.inl rfl, Or.inl rfl⟩
  case dropR =>
    simp only [step] at h
    split at h
    case isFalse => simp at h
    case isTrue hg1 =>
      have hpra : pr = Phase.alive := hpr.mpr hg1
      subst hpra
      simp only [Option.some.injEq, Prod.mk.injEq] at h
      obtain ⟨h1, -⟩ := h
      rw [← h1]
      dsimp only
      by_cases h2 : r = 1
      · rw [if_pos h2]
        by_cases h3 : (dec_rx c).1 = DecrementAction.notify
        · rw [if_pos h3]
          exact ⟨Or.inl rfl, Or.inr (Or.inl ⟨rfl, Or.inl rfl⟩), Or.inl rfl⟩
        · rw [if_neg h3]
          exact ⟨Or.inl rfl, Or.inr (Or.inl ⟨rfl, Or.inr rfl⟩), Or.inl rfl⟩
      · rw [if_neg h2]
        exact ⟨Or.inl rfl, Or.inl rfl, Or.inl rfl⟩
  case cbT =>
    simp only [step] at h
    split at h
    case isFalse => simp at h
    case isTrue hgd =>
      simp only [Option.some.injEq, Prod.mk.injEq] at h
      obtain ⟨h1, -⟩ := h
      rw [← h1]
      exact ⟨Or.inr (Or.inr (Or.inl ⟨hgd, rfl⟩)), Or.inl rfl, Or.inr rfl⟩
  case cbR =>
    simp only [step] at h
    split at h
    case isFalse => simp at h
    case isTrue hgd =>
      simp only [Option.some.injEq, Prod.mk.injEq] at h
      obtain ⟨h1, -⟩ := h
      rw [← h1]
      exact ⟨Or.inl rfl, Or.inr (Or.inr (Or.inl ⟨hgd, rfl⟩)), Or.inl rfl⟩
  case finT =>
    simp only [step] at h
    split at h
    case isFalse => simp at h
    case isTrue hgd =>
      simp only [Option.some.injEq, Prod.mk.injEq] at h
      obtain ⟨h1, -⟩ := h
      rw [← h1]
      exact ⟨Or.inr (Or.inr (Or.inr ⟨hgd, rfl⟩)), Or.inl rfl, Or.inr rfl⟩
  case finR =>
    simp only [step] at h
    split at h
    case isFalse => simp at h
    case isTrue hgd =>
      simp only [Option.some.injEq, Prod.mk.injEq] at h
      obtain ⟨h1, -⟩ := h
      rw [← h1]
      exact ⟨Or.inl rfl, Or.inr (Or.inr (Or.inr ⟨hgd, rfl⟩)), Or.inl rfl⟩
  all_goals
    simp only [step] at h
    split at h
    case isFalse => simp at h
    case isTrue =>
      simp only [Option.some.injEq, Prod.mk.injEq] at h
      obtain ⟨h1, -⟩ := h
      rw [← h1]
      exact ⟨Or.inl rfl, Or.inl rfl, Or.inl rfl⟩

/-- No atomic step is enabled once both sides have finished teardown: the
allocation is gone and nothing references it any more. -/
theorem no_step_from_complete (s : St) (l : Lab) (s' : St) (evs : List Ev)
    (hI : Inv s) (h : step s l = some (s', evs))
    (hdt : phDone s.pt = true) (hdr : phDone s.pr = true) : False := by
  obtain ⟨c, t, r, pt, pr⟩ := s
  obtain ⟨hc, ht, hr, hpt, hpr, hG, hQQ, hQt, hQr⟩ := hI
  dsimp only at hc ht hr hpt hpr hG hQQ hQt hQr hdt hdr
  have ht0 : t = 0 := by
    have : ¬ 1 ≤ t := fun hh => by
      rw [hpt.mpr hh] at hdt; exact absurd hdt (by decide)
    omega
  have hr0 : r = 0 := by
    have : ¬ 1 ≤ r := fun hh => by
      rw [hpr.mpr hh] at hdr; exact absurd hdr (by decide)
    omega
  have hptn : pt ≠ Phase.notifying := fun hh => by
    rw [hh] at hdt; exact absurd hdt (by decide)
  have hptn2 : pt ≠ Phase.notified := fun hh => by
    rw [hh] at hdt; exact absurd hdt (by decide)
  have hprn : pr ≠ Phase.notifying := fun hh => by
    rw [hh] at hdr; exact absurd hdr (by decide)
  have hprn2 : pr ≠ Phase.notified := fun hh => by
    rw [hh] at hdr; exact absurd hdr (by decide)
  cases l
  case cloneT =>
    simp only [step] at h
    split at h
    case isTrue hg => exact absurd hg.1 (by omega)
    case isFalse => simp at h
  case cloneR =>
    simp only [step] at h
    split at h
    case isTrue hg => exact absurd hg.1 (by omega)
    case isFalse => simp at h
  case dropT =>
    simp only [step] at h
    split at h
    case isTrue hg => exact absurd hg (by omega)
    case isFalse => simp at h
  case dropR =>
    simp only [step] at h
    split at h
    case isTrue hg => exact absurd hg (by omega)
    case isFalse => simp at h
  case cbT =>
    simp only [step] at h
    split at h
    case isTrue hg => exact absurd hg hptn
    case isFalse => simp at h
  case cbR =>
    simp only [step] at h
    split at h
    case isTrue hg => exact absurd hg hprn
    case isFalse => simp at h
  case finT =>
    simp only [step] at h
    split at h
    case isTrue hg => exact absurd hg hptn2
    case isFalse => simp at h
  case finR =>
    simp only [step] at h
    split at h
    case isTrue hg => exact absurd hg hprn2
    case isFalse => simp at h

theorem destroy_mem_evsOf (x : St) :
    Ev.destroy ∈ evsOf x ↔ (phDone x.pt = true ∧ phDone x.pr = true) := by
  unfold evsOf
  by_cases hd : phDone x.pt = true ∧ phDone x.pr = true
  · rw [if_pos hd]
    simp [hd]
  · rw [if_neg hd]
    simp only [List.append_nil]
    constructor
    · intro hmem
      exfalso
      by_cases h1 : phNotified x.pt = true
      · rw [if_pos h1] at hmem; simp at hmem
      · rw [if_neg h1] at hmem
        by_cases h2 : phNotified x.pr = true
        · rw [if_pos h2] at hmem; simp at hmem
        · rw [if_neg h2] at hmem; simp at hmem
    · intro hdd
      exact absurd hdd hd

theorem release_mem_evsOf (x : St) :
    Ev.release ∈ evsOf x ↔ (phDone x.pt = true ∧ phDone x.pr = true) := by
  unfold evsOf
  by_cases hd : phDone x.pt = true ∧ phDone x.pr = true
  · rw [if_pos hd]
    simp [hd]
  · rw [if_neg hd]
    simp only [List.append_nil]
    constructor
    · intro hmem
      exfalso
      by_cases h1 : phNotified x.pt = true
      · rw [if_pos h1] at hmem; simp at hmem
      · rw [if_neg h1] at hmem
        by_cases h2 : phNotified x.pr = true
        · rw [if_pos h2] at hmem; simp at hmem
        · rw [if_neg h2] at hmem; simp at hmem
    · intro hdd
      exact absurd hdd hd

theorem cbTx_mem_evsOf (x : St) :
    Ev.cbTx ∈ evsOf x ↔ phNotified x.pt = true := by
  unfold evsOf
  by_cases h1 : phNotified x.pt = true <;>
    by_cases h2 : phNotified x.pr = true <;>
      by_cases h3 : phDone x.pt = true ∧ phDone x.pr = true <;>
        simp [h1, h2, h3]

theorem cbRx_mem_evsOf (x : St) :
    Ev.cbRx ∈ evsOf x ↔ (phNotified x.pt = false ∧ phNotified x.pr = true) := by
  unfold evsOf
  by_cases h1 : phNotified x.pt = true <;>
    by_cases h2 : phNotified x.pr = true <;>
      by_cases h3 : phDone x.pt = true ∧ phDone x.pr = true <;>
        simp [h1, h2, h3]

theorem evsOf_count (x : St) :
    List.count Ev.destroy (evsOf x)
        = (if phDone x.pt = true ∧ phDone x.pr = true then 1 else 0)
    ∧ List.count Ev.release (evsOf x)
        = (if phDone x.pt = true ∧ phDone x.pr = true then 1 else 0)
    ∧ List.count Ev.cbTx (evsOf x) = (if phNotified x.pt = true then 1 else 0)
    ∧ List.count Ev.cbRx (evsOf x)
        = (if phNotified x.pt = true then 0
           else if phNotified x.pr = true then 1 else 0) := by
  unfold evsOf
  by_cases h1 : phNotified x.pt = true <;>
    by_cases h2 : phNotified x.pr = true <;>
      by_cases h3 : phDone x.pt = true ∧ phDone x.pr = true <;>
        simp [h1, h2, h3, List.count_append, List.count_cons, List.count_nil]

theorem phNotified_imp_phG (p : Phase) (h : phNotified p = true) : phG p = true := by
  cases p <;> first | rfl | exact absurd h (by decide)

theorem done_t_zero (s : St) (hI : Inv s) (hd : phDone s.pt = true) : s.t = 0 := by
  obtain ⟨hc, ht, hr, hpt, hpr, hG, hQQ, hQt, hQr⟩ := hI
  have : ¬ 1 ≤ s.t := fun hh => by
    rw [hpt.mpr hh] at hd; exact absurd hd (by decide)
  omega

theorem done_r_zero (s : St) (hI : Inv s) (hd : phDone s.pr = true) : s.r = 0 := by
  obtain ⟨hc, ht, hr, hpt, hpr, hG, hQQ, hQt, hQr⟩ := hI
  have : ¬ 1 ≤ s.r := fun hh => by
    rw [hpr.mpr hh] at hd; exact absurd hd (by decide)
  omega

/-- Dropping the last tx handle while rx handles are alive: the `dec_tx`
transaction returns `Notify` and the side enters the notifying phase. -/
theorem step_dropT_at_one (c r : Nat) (pt pr : Phase)
    (hI : Inv ⟨c, 1, r, pt, pr⟩) (hr1 : 1 ≤ r) :
    step ⟨c, 1, r, pt, pr⟩ Lab.dropT =
      some (⟨pack 0 r 0, 0, r, Phase.notifying, pr⟩, []) := by
  obtain ⟨hc, ht, hr, hpt, hpr, hG, hQQ, hQt, hQr⟩ := hI
  dsimp only at hc ht hr hpt hpr
  have hpta : pt = Phase.alive := hpt.mpr (by omega)
  have hpra : pr = Phase.alive := hpr.mpr hr1
  subst hpta
  subst hpra
  have hd0 : dcp Phase.alive Phase.alive = 0 := by decide
  rw [hd0] at hc
  simp only [step]
  rw [if_pos (by omega : 1 ≤ 1)]
  rw [hc, dec_tx_pack 1 r 0 (by omega) (by omega) hr (by omega)]
  rw [if_pos rfl, if_neg (by omega : ¬ r = 0)]
  simp

/-- Mirror image of `step_dropT_at_one`. -/
theorem step_dropR_at_one (c t : Nat) (pt pr : Phase)
    (hI : Inv ⟨c, t, 1, pt, pr⟩) (ht1 : 1 ≤ t) :
    step ⟨c, t, 1, pt, pr⟩ Lab.dropR =
      some (⟨pack t 0 0, t, 0, pt, Phase.notifying⟩, []) := by
  obtain ⟨hc, ht, hr, hpt, hpr, hG, hQQ, hQt, hQr⟩ := hI
  dsimp only at hc ht hr hpt hpr
  have hpta : pt = Phase.alive := hpt.mpr ht1
  have hpra : pr = Phase.alive := hpr.mpr (by omega)
  subst hpta
  subst hpra
  have hd0 : dcp Phase.alive Phase.alive = 0 := by decide
  rw [hd0] at hc
  simp only [step]
  rw [if_pos (by omega : 1 ≤ 1)]
  rw [hc, dec_rx_pack t 1 0 (by omega) ht (by omega) (by omega)]
  rw [if_pos rfl, if_neg (by omega : ¬ t = 0)]
  simp

/-- The schedule contains the drop of the last tx handle, performed while at
least one rx handle was alive (so its `dec_tx` observed `rx_count ≠ 0`). -/
def TxSawLiveRx (ls : List Lab) : Prop :=
  ∃ l1 l2 s1 evs1, ls = l1 ++ Lab.dropT :: l2 ∧ run stInit l1 = some (s1, evs1)
    ∧ s1.t = 1 ∧ 1 ≤ s1.r

/-- The schedule contains the drop of the last rx handle, performed while at
least one tx handle was alive. -/
def RxSawLiveTx (ls : List Lab) : Prop :=
  ∃ l1 l2 s1 evs1, ls = l1 ++ Lab.dropR :: l2 ∧ run stInit l1 = some (s1, evs1)
    ∧ s1.r = 1 ∧ 1 ≤ s1.t

/-- The schedule contains the drop of the last tx handle, performed with the
rx count already zero (its `dec_tx` observed `rx_count = 0`). -/
def TxSawEmptyRx (ls : List Lab) : Prop :=
  ∃ l1 l2 s1 evs1, ls = l1 ++ Lab.dropT :: l2 ∧ run stInit l1 = some (s1, evs1)
    ∧ s1.t = 1 ∧ s1.r = 0

/-- The schedule contains the drop of the last rx handle, performed with the
tx count already zero. -/
def RxSawEmptyTx (ls : List Lab) : Prop :=
  ∃ l1 l2 s1 evs1, ls = l1 ++ Lab.dropR :: l2 ∧ run stInit l1 = some (s1, evs1)
    ∧ s1.r = 1 ∧ s1.t = 0

/-- C1: in every execution from `new` (any interleaving of clones and drops
of both handle kinds at atomic granularity), the payload is destroyed at
most once and the allocation released at most once; destruction and release
happen only after every handle of both kinds has been dropped (at the moment
either event has occurred, no live handle remains, and none can reappear);
and in every complete execution they happen exactly once each. -/
theorem C1_payload_destroyed_once (ls : List Lab) (s : St) (evs : List Ev)
    (h : run stInit ls = some (s, evs)) :
    List.count Ev.destroy evs ≤ 1 ∧ List.count Ev.release evs ≤ 1
    ∧ (Ev.destroy ∈ evs → s.t = 0 ∧ s.r = 0)
    ∧ (Ev.release ∈ evs → s.t = 0 ∧ s.r = 0)
    ∧ (Complete s →
        List.count Ev.destroy evs = 1 ∧ List.count Ev.release evs = 1) := by
  obtain ⟨hI, rfl⟩ := run_init_sound ls s evs h
  obtain ⟨hcd, hcr, hct, hcx⟩ := evsOf_count s
  refine ⟨by rw [hcd]; split <;> omega, by rw [hcr]; split <;> omega, ?_, ?_, ?_⟩
  · intro hmem
    obtain ⟨hdt, hdr⟩ := (destroy_mem_evsOf s).mp hmem
    exact ⟨done_t_zero s hI hdt, done_r_zero s hI hdr⟩
  · intro hmem
    obtain ⟨hdt, hdr⟩ := (release_mem_evsOf s).mp hmem
    exact ⟨done_t_zero s hI hdt, done_r_zero s hI hdr⟩
  · intro hC
    obtain ⟨-, -, hdt, hdr⟩ := hC
    rw [hcd, hcr]
    simp [hdt, hdr]

/-- Witness for C1 at a concrete complete schedule: drop the tx handle (the
rx side is alive, so it notifies), run the callback and finalization, then
drop the rx handle, which deallocates. -/
theorem C1_payload_destroyed_once_witness :
    List.count Ev.destroy [Ev.cbTx, Ev.destroy, Ev.release] ≤ 1
    ∧ List.count Ev.release [Ev.cbTx, Ev.destroy, Ev.release] ≤ 1
    ∧ (Ev.destroy ∈ [Ev.cbTx, Ev.destroy, Ev.release] →
        (⟨2, 0, 0, Phase.doneNotified, Phase.doneQuiet⟩ : St).t = 0
        ∧ (⟨2, 0, 0, Phase.doneNotified, Phase.doneQuiet⟩ : St).r = 0)
    ∧ (Ev.release ∈ [Ev.cbTx, Ev.destroy, Ev.release] →
        (⟨2, 0, 0, Phase.doneNotified, Phase.doneQuiet⟩ : St).t = 0
        ∧ (⟨2, 0, 0, Phase.doneNotified, Phase.doneQuiet⟩ : St).r = 0)
    ∧ (Complete ⟨2, 0, 0, Phase.doneNotified, Phase.doneQuiet⟩ →
        List.count Ev.destroy [Ev.cbTx, Ev.destroy, Ev.release] = 1
        ∧ List.count Ev.release [Ev.cbTx, Ev.destroy, Ev.release] = 1) :=
  C1_payload_destroyed_once [Lab.dropT, Lab.cbT, Lab.finT, Lab.dropR]
    ⟨2, 0, 0, Phase.doneNotified, Phase.doneQuiet⟩
    [Ev.cbTx, Ev.destroy, Ev.release] (by decide)

/-- C2: in every complete execution from `new` (all handles of both kinds
eventually dropped and all teardown finished), the total number of
notification-callback invocations is exactly one — never zero, never two —
regardless of the interleaving. -/
theorem C2_exactly_one_notification (ls : List Lab) (s : St) (evs : List Ev)
    (h : run stInit ls = some (s, evs)) (hC : Complete s) :
    List.count Ev.cbTx evs + List.count Ev.cbRx evs = 1 := by
  rcases complete_run_evs ls s evs h hC with ⟨-, -, rfl⟩ | ⟨-, -, rfl⟩ <;> decide

/-- Witness for C2 at a concrete complete schedule with a clone: clone the
rx handle, drop both rx handles (the second drop notifies), drop tx, then
the rx side finalizes and deallocates. -/
theorem C2_exactly_one_notification_witness :
    List.count Ev.cbTx [Ev.cbRx, Ev.destroy, Ev.release]
      + List.count Ev.cbRx [Ev.cbRx, Ev.destroy, Ev.release] = 1 :=
  C2_exactly_one_notification
    [Lab.cloneR, Lab.dropR, Lab.dropR, Lab.cbR, Lab.dropT, Lab.finR]
    ⟨2, 0, 0, Phase.doneQuiet, Phase.doneNotified⟩
    [Ev.cbRx, Ev.destroy, Ev.release] (by decide) ⟨rfl, rfl, rfl, rfl⟩

/-- C3 counterexample: the last `Tx` and the last `Rx` are dropped
concurrently — the rx decrement commits between the tx decrement and the tx
side's callback, so the two drop operations overlap — yet only the tx
callback fires; `last_rx_did_drop` is never invoked (its count in the
complete trace is 0, not 1 as the claim requires). -/
theorem C3_counterexample :
    run stInit [Lab.dropT, Lab.dropR, Lab.cbT, Lab.finT] =
      some (⟨2, 0, 0, Phase.doneNotified, Phase.doneQuiet⟩,
        [Ev.cbTx, Ev.destroy, Ev.release])
    ∧ Complete ⟨2, 0, 0, Phase.doneNotified, Phase.doneQuiet⟩
    ∧ List.count Ev.cbRx [Ev.cbTx, Ev.destroy, Ev.release] = 0
    ∧ ¬ List.count Ev.cbRx [Ev.cbTx, Ev.destroy, Ev.release] = 1 :=
  ⟨by decide, ⟨rfl, rfl, rfl, rfl⟩, by decide, by decide⟩

/-- C3 (amended): when the last `Tx` and the last `Rx` are dropped
concurrently, whichever decrement commits first observes the other side
alive and fires its own callback exactly once; the other side's callback
does not fire; exactly one payload destruction and one deallocation occur,
strictly after the callback has returned.  Formally: every complete trace is
`[cbTx, destroy, release]` or `[cbRx, destroy, release]` — one callback, one
destruction, one release, with the callback preceding both. -/
theorem C3_one_side_notifies_dealloc_last (ls : List Lab) (s : St) (evs : List Ev)
    (h : run stInit ls = some (s, evs)) (hC : Complete s) :
    evs = [Ev.cbTx, Ev.destroy, Ev.release]
      ∨ evs = [Ev.cbRx, Ev.destroy, Ev.release] := by
  rcases complete_run_evs ls s evs h hC with ⟨-, -, rfl⟩ | ⟨-, -, rfl⟩
  · exact Or.inl rfl
  · exact Or.inr rfl

/-- Witness for the amended C3 at the racing-drop schedule of the
counterexample. -/
theorem C3_one_side_notifies_dealloc_last_witness :
    [Ev.cbTx, Ev.destroy, Ev.release] = [Ev.cbTx, Ev.destroy, Ev.release]
      ∨ [Ev.cbTx, Ev.destroy, Ev.release] = [Ev.cbRx, Ev.destroy, Ev.release] :=
  C3_one_side_notifies_dealloc_last [Lab.dropT, Lab.dropR, Lab.cbT, Lab.finT]
    ⟨2, 0, 0, Phase.doneNotified, Phase.doneQuiet⟩
    [Ev.cbTx, Ev.destroy, Ev.release] (by decide) ⟨rfl, rfl, rfl, rfl⟩

/-- C4: if the last live `Tx` is dropped while at least one `Rx` is alive,
`last_tx_did_drop` fires exactly once in every completion, and
`last_rx_did_drop` never fires (in particular it has not fired at the moment
the tx callback runs); each side's callback fires at most once per
allocation lifetime, and only if a handle of the other kind was alive at
that side's last drop; symmetrically for the read side. -/
theorem C4_last_drop_notifies_other_side (ls : List Lab) (s : St) (evs : List Ev)
    (h : run stInit ls = some (s, evs)) :
    (TxSawLiveRx ls →
      List.count Ev.cbRx evs = 0 ∧ List.count Ev.cbTx evs ≤ 1
      ∧ (Complete s → List.count Ev.cbTx evs = 1))
    ∧ (Ev.cbTx ∈ evs → TxSawLiveRx ls)
    ∧ (RxSawLiveTx ls →
      List.count Ev.cbTx evs = 0 ∧ List.count Ev.cbRx evs ≤ 1
      ∧ (Complete s → List.count Ev.cbRx evs = 1))
    ∧ (Ev.cbRx ∈ evs → RxSawLiveTx ls) := by
  obtain ⟨hI, rfl⟩ := run_init_sound ls s evs h
  obtain ⟨hcd, hcr, hct, hcx⟩ := evsOf_count s
  have keyT : TxSawLiveRx ls → phG s.pt = true := by
    rintro ⟨l1, l2, s1, e1, rfl, hr1, ht1, hr1r⟩
    obtain ⟨hI1, -⟩ := run_init_sound l1 s1 e1 hr1
    obtain ⟨c1, t1, r1, pt1, pr1⟩ := s1
    dsimp only at ht1 hr1r
    subst ht1
    have hstep := step_dropT_at_one c1 r1 pt1 pr1 hI1 hr1r
    rw [run_append, hr1] at h
    dsimp only at h
    simp only [run] at h
    rw [hstep] at h
    dsimp only at h
    cases hrun2 : run ⟨pack 0 r1 0, 0, r1, Phase.notifying, pr1⟩ l2 with
    | none => rw [hrun2] at h; simp at h
    | some q =>
      obtain ⟨s2, e2⟩ := q
      rw [hrun2] at h
      simp only [Option.some.injEq, Prod.mk.injEq] at h
      obtain ⟨rfl, -⟩ := h
      have hI2 : Inv ⟨pack 0 r1 0, 0, r1, Phase.notifying, pr1⟩ :=
        (step_sound ⟨c1, 1, r1, pt1, pr1⟩ Lab.dropT _ _ hI1 hstep).1
      exact gpath_persistsT l2 _ s2 e2 hI2 hrun2 rfl
  have keyR : RxSawLiveTx ls → phG s.pr = true := by
    rintro ⟨l1, l2, s1, e1, rfl, hr1, hrr1, ht1⟩
    obtain ⟨hI1, -⟩ := run_init_sound l1 s1 e1 hr1
    obtain ⟨c1, t1, r1, pt1, pr1⟩ := s1
    dsimp only at hrr1 ht1
    subst hrr1
    have hstep := step_dropR_at_one c1 t1 pt1 pr1 hI1 ht1
    rw [run_append, hr1] at h
    dsimp only at h
    simp only [run] at h
    rw [hstep] at h
    dsimp only at h
    cases hrun2 : run ⟨pack t1 0 0, t1, 0, pt1, Phase.notifying⟩ l2 with
    | none => rw [hrun2] at h; simp at h
    | some q =>
      obtain ⟨s2, e2⟩ := q
      rw [hrun2] at h
      simp only [Option.some.injEq, Prod.mk.injEq] at h
      obtain ⟨rfl, -⟩ := h
      have hI2 : Inv ⟨pack t1 0 0, t1, 0, pt1, Phase.notifying⟩ :=
        (step_sound ⟨c1, t1, 1, pt1, pr1⟩ Lab.dropR _ _ hI1 hstep).1
      exact gpath_persistsR l2 _ s2 e2 hI2 hrun2 rfl
  obtain ⟨-, -, -, -, -, hG, -, -, -⟩ := hI
  refine ⟨?_, ?_, ?_, ?_⟩
  · intro hT
    have hg := keyT hT
    have hgr : ¬ phG s.pr = true := fun hh => hG ⟨hg, hh⟩
    have hnr : phNotified s.pr = false := by
      cases hr2 : phNotified s.pr
      · rfl
      · exact absurd (phNotified_imp_phG _ hr2) hgr
    refine ⟨by rw [hcx, hnr]; simp, by rw [hct]; split <;> omega, ?_⟩
    intro hC
    rcases complete_run_evs ls s _ h hC with ⟨-, -, heq⟩ | ⟨hpt, -, heq⟩
    · rw [heq]; decide
    · rw [hpt] at hg; exact absurd hg (by decide)
  · intro hmem
    have hg := phNotified_imp_phG _ ((cbTx_mem_evsOf s).mp hmem)
    rcases gpath_originT ls stInit s _ inv_init h hg with h0 | hsplit
    · exact absurd h0 (by decide)
    · exact hsplit
  · intro hT
    have hg := keyR hT
    have hgt : ¬ phG s.pt = true := fun hh => hG ⟨hh, hg⟩
    have hnt : phNotified s.pt = false := by
      cases ht2 : phNotified s.pt
      · rfl
      · exact absurd (phNotified_imp_phG _ ht2) hgt
    refine ⟨by rw [hct, hnt]; simp, by rw [hcx]; split <;> [omega; split <;> omega], ?_⟩
    intro hC
    rcases complete_run_evs ls s _ h hC with ⟨-, hpr, heq⟩ | ⟨-, -, heq⟩
    · rw [hpr] at hg; exact absurd hg (by decide)
    · rw [heq]; decide
  · intro hmem
    have hg := phNotified_imp_phG _ ((cbRx_mem_evsOf s).mp hmem).2
    rcases gpath_originR ls stInit s _ inv_init h hg with h0 | hsplit
    · exact absurd h0 (by decide)
    · exact hsplit

/-- Witness for C4 at the schedule that drops the last tx handle while the
rx handle is alive, completes the notification, then drops the rx handle. -/
theorem C4_last_drop_notifies_other_side_witness :
    (TxSawLiveRx [Lab.dropT, Lab.cbT, Lab.finT, Lab.dropR] →
      List.count Ev.cbRx [Ev.cbTx, Ev.destroy, Ev.release] = 0
      ∧ List.count Ev.cbTx [Ev.cbTx, Ev.destroy, Ev.release] ≤ 1
      ∧ (Complete ⟨2, 0, 0, Phase.doneNotified, Phase.doneQuiet⟩ →
          List.count Ev.cbTx [Ev.cbTx, Ev.destroy, Ev.release] = 1))
    ∧ (Ev.cbTx ∈ [Ev.cbTx, Ev.destroy, Ev.release] →
        TxSawLiveRx [Lab.dropT, Lab.cbT, Lab.finT, Lab.dropR])
    ∧ (RxSawLiveTx [Lab.dropT, Lab.cbT, Lab.finT, Lab.dropR] →
      List.count Ev.cbTx [Ev.cbTx, Ev.destroy, Ev.release] = 0
      ∧ List.count Ev.cbRx [Ev.cbTx, Ev.destroy, Ev.release] ≤ 1
      ∧ (Complete ⟨2, 0, 0, Phase.doneNotified, Phase.doneQuiet⟩ →
          List.count Ev.cbRx [Ev.cbTx, Ev.destroy, Ev.release] = 1))
    ∧ (Ev.cbRx ∈ [Ev.cbTx, Ev.destroy, Ev.release] →
        RxSawLiveTx [Lab.dropT, Lab.cbT, Lab.finT, Lab.dropR]) :=
  C4_last_drop_notifies_other_side [Lab.dropT, Lab.cbT, Lab.finT, Lab.dropR]
    ⟨2, 0, 0, Phase.doneNotified, Phase.doneQuiet⟩
    [Ev.cbTx, Ev.destroy, Ev.release] (by decide)

/-- The antecedent of the first half of C5 is unsatisfiable: the two last
drops cannot both observe the other side already at zero, because the
earlier of the two atomic decrements still sees the other side's last
handle alive. -/
theorem not_both_last_drops_saw_empty (ls : List Lab) (s : St) (evs : List Ev)
    (h : run stInit ls = some (s, evs)) :
    ¬ (TxSawEmptyRx ls ∧ RxSawEmptyTx ls) := by
  rintro ⟨⟨l1, l2, s1, e1, hsp1, hr1, ht1, hr1z⟩,
    ⟨m1, m2, u1, f1, hsp2, hr2, hu1r, hu1t⟩⟩
  exact drops_ordered l1 l2 m1 m2 s1 u1 e1 f1 (hsp1.symm.trans hsp2) hr1 hr2
    ht1 hr1z hu1t hu1r

/-- C5: if both handle kinds reach zero with neither side's last decrement
observing a live counterpart, then no callback fires and the payload is
still destroyed exactly once; and exactly one of the two callbacks fires
over a complete lifetime if and only if the two kinds were exhausted at
different times (the earlier-exhausted side's last decrement saw the other
side alive).  In the atomic interleaving semantics the first conjunct's
antecedent never holds (`not_both_last_drops_saw_empty`) and both sides of
the equivalence hold in every complete execution. -/
theorem C5_simultaneous_exhaustion (ls : List Lab) (s : St) (evs : List Ev)
    (h : run stInit ls = some (s, evs)) (hC : Complete s) :
    ((TxSawEmptyRx ls ∧ RxSawEmptyTx ls) →
      List.count Ev.cbTx evs + List.count Ev.cbRx evs = 0
        ∧ List.count Ev.destroy evs = 1)
    ∧ (List.count Ev.cbTx evs + List.count Ev.cbRx evs = 1
        ↔ (TxSawLiveRx ls ∨ RxSawLiveTx ls)) := by
  have hnb := not_both_last_drops_saw_empty ls s evs h
  constructor
  · intro hboth
    exact absurd hboth hnb
  · have hL : List.count Ev.cbTx evs + List.count Ev.cbRx evs = 1 := by
      rcases complete_run_evs ls s evs h hC with ⟨-, -, rfl⟩ | ⟨-, -, rfl⟩ <;> decide
    have hR : TxSawLiveRx ls ∨ RxSawLiveTx ls := by
      obtain ⟨ht0, hr0, -, -⟩ := hC
      obtain ⟨l1, l2, s1, e1, hsp, hr1, ht1⟩ :=
        txDrop_extract ls stInit s evs h (by decide) ht0
      by_cases hrz : 1 ≤ s1.r
      · exact Or.inl ⟨l1, l2, s1, e1, hsp, hr1, ht1, hrz⟩
      · obtain ⟨m1, m2, u1, f1, hsp2, hr2, hrr1⟩ :=
          rxDrop_extract ls stInit s evs h (by decide) hr0
        by_cases htz : 1 ≤ u1.t
        · exact Or.inr ⟨m1, m2, u1, f1, hsp2, hr2, hrr1, htz⟩
        · exact absurd ⟨⟨l1, l2, s1, e1, hsp, hr1, ht1, by omega⟩,
            ⟨m1, m2, u1, f1, hsp2, hr2, hrr1, by omega⟩⟩ hnb
    exact iff_of_true hL hR

/-- Witness for C5 at the schedule that exhausts the rx side first. -/
theorem C5_simultaneous_exhaustion_witness :
    ((TxSawEmptyRx [Lab.dropR, Lab.cbR, Lab.finR, Lab.dropT]
        ∧ RxSawEmptyTx [Lab.dropR, Lab.cbR, Lab.finR, Lab.dropT]) →
      List.count Ev.cbTx [Ev.cbRx, Ev.destroy, Ev.release]
        + List.count Ev.cbRx [Ev.cbRx, Ev.destroy, Ev.release] = 0
      ∧ List.count Ev.destroy [Ev.cbRx, Ev.destroy, Ev.release] = 1)
    ∧ (List.count Ev.cbTx [Ev.cbRx, Ev.destroy, Ev.release]
        + List.count Ev.cbRx [Ev.cbRx, Ev.destroy, Ev.release] = 1
      ↔ (TxSawLiveRx [Lab.dropR, Lab.cbR, Lab.finR, Lab.dropT]
          ∨ RxSawLiveTx [Lab.dropR, Lab.cbR, Lab.finR, Lab.dropT])) :=
  C5_simultaneous_exhaustion [Lab.dropR, Lab.cbR, Lab.finR, Lab.dropT]
    ⟨2, 0, 0, Phase.doneQuiet, Phase.doneNotified⟩
    [Ev.cbRx, Ev.destroy, Ev.release] (by decide) ⟨rfl, rfl, rfl, rfl⟩

theorem dcp_eq_two (pt pr : Phase) :
    dcp pt pr = 2 ↔ (phDone pt = true ∧ phDone pr = true) := by
  cases pt <;> cases pr <;> decide

theorem phDone_step_mono (p p' : Phase)
    (hrel : p' = p
      ∨ (p = Phase.alive ∧ (p' = Phase.notifying ∨ p' = Phase.doneQuiet))
      ∨ (p = Phase.notifying ∧ p' = Phase.notified)
      ∨ (p = Phase.notified ∧ p' = Phase.doneNotified))
    (hd : phDone p = true) : phDone p' = true := by
  rcases hrel with he | ⟨ha, _⟩ | ⟨hn, _⟩ | ⟨_, h2⟩
  · rw [he]; exact hd
  · rw [ha] at hd; exact absurd hd (by decide)
  · rw [hn] at hd; exact absurd hd (by decide)
  · rw [h2]; rfl

theorem dcp_step_mono (pt pr pt' pr' : Phase)
    (hmT : phDone pt = true → phDone pt' = true)
    (hmR : phDone pr = true → phDone pr' = true) :
    dcp pt pr ≤ dcp pt' pr' := by
  unfold dcp
  have e1 : (if phDone pt then (1:Nat) else 0) ≤ (if phDone pt' then 1 else 0) := by
    by_cases h1 : phDone pt = true
    · simp [h1, hmT h1]
    · simp [h1]
  have e2 : (if phDone pr then (1:Nat) else 0) ≤ (if phDone pr' then 1 else 0) := by
    by_cases h2 : phDone pr = true
    · simp [h2, hmR h2]
    · simp [h2]
  omega

theorem dcp_succ_bound (pt pr pt' pr' : Phase) (h : pt' = pt ∨ pr' = pr) :
    dcp pt' pr' ≤ dcp pt pr + 1 := by
  rcases h with he | he
  · rw [he]
    cases pt <;> cases pr <;> cases pr' <;> decide
  · rw [he]
    cases pt <;> cases pr <;> cases pt' <;> decide

theorem dcp_succ_cases (pt pr pt' pr' : Phase)
    (hone : pt' = pt ∨ pr' = pr)
    (hinc : dcp pt' pr' = dcp pt pr + 1) :
    (phDone pt = false ∧ phDone pt' = true ∧ pr' = pr)
    ∨ (phDone pr = false ∧ phDone pr' = true ∧ pt' = pt) := by
  rcases hone with he | he
  · have hx : phDone pr = false ∧ phDone pr' = true := by
      rw [he] at hinc
      revert hinc
      cases pt <;> cases pr <;> cases pr' <;> decide
    exact Or.inr ⟨hx.1, hx.2, he⟩
  · have hx : phDone pt = false ∧ phDone pt' = true := by
      rw [he] at hinc
      revert hinc
      cases pt <;> cases pr <;> cases pt' <;> decide
    exact Or.inl ⟨hx.1, hx.2, he⟩

/-- Per-step behaviour of the packed word's finalize (drop) count, stated as
a predicate on a source state, target state and emitted events. -/
def DcStep (s s' : St) (evs' : List Ev) : Prop :=
  drop_count s.c ≤ drop_count s'.c
  ∧ drop_count s'.c ≤ drop_count s.c + 1
  ∧ drop_count s'.c ≤ 2
  ∧ (drop_count s'.c = drop_count s.c + 1 →
      ((s.pt = Phase.alive ∧ s'.pt = Phase.doneQuiet ∧ s'.t = 0 ∧ s'.r = 0)
        ∨ (s.pr = Phase.alive ∧ s'.pr = Phase.doneQuiet ∧ s'.t = 0 ∧ s'.r = 0)
        ∨ (s.pt = Phase.notified ∧ s'.pt = Phase.doneNotified ∧ s'.t = 0)
        ∨ (s.pr = Phase.notified ∧ s'.pr = Phase.doneNotified ∧ s'.r = 0)))
  ∧ (Ev.destroy ∈ evs' ↔ (drop_count s.c = 1 ∧ drop_count s'.c = 2))

/-- C6 counterexample: after the last tx handle drops while an rx handle is
still alive, the notified tx side's finalize step (`inc_drop_count`, the
ghost label `finT`) raises the packed drop count from 0 to 1 while
`rx_count` is still 1 — the incrementing side has NOT observed both counts
simultaneously zero, refuting that part of the claim. -/
theorem C6_counterexample :
    run stInit [Lab.dropT, Lab.cbT]
      = some (⟨4, 0, 1, Phase.notified, Phase.alive⟩, [Ev.cbTx])
    ∧ run stInit [Lab.dropT, Lab.cbT, Lab.finT]
      = some (⟨5, 0, 1, Phase.doneNotified, Phase.alive⟩, [Ev.cbTx])
    ∧ drop_count 5 = drop_count 4 + 1
    ∧ rx_count 5 = 1
    ∧ ¬ (rx_count 5 = 0) := by decide

/-- C6 (amended): the packed counter starts with tx count 1, rx count 1 and
drop (finalize) count 0; along every atomic step from a reachable state the
drop count never decreases, grows by at most 1 per step, and never exceeds
2; every increment is either a last drop that observed both counts zero
(the quiet path) or the post-notification finalize increment, which only
guarantees the incrementing side's OWN count is zero (the other side's
count may still be nonzero); and the record is deallocated in exactly the
step whose own increment moves the drop count from 1 to 2. -/
theorem C6_finalize_count (s : St) (l : Lab) (s' : St) (evs' : List Ev)
    (hI : Inv s) (h : step s l = some (s', evs')) :
    (tx_count stInit.c = 1 ∧ rx_count stInit.c = 1 ∧ drop_count stInit.c = 0)
    ∧ DcStep s s' evs' := by
  obtain ⟨hI', hev⟩ := step_sound s l s' evs' hI h
  obtain ⟨relT, relR, hone⟩ := step_phase_rel s l s' evs' hI h
  have hdc : drop_count s.c = dcp s.pt s.pr := by
    rw [hI.1]
    exact drop_count_pack s.t s.r _ hI.2.1 hI.2.2.1 (le_trans (dcp_le _ _) (by norm_num))
  have hdc' : drop_count s'.c = dcp s'.pt s'.pr := by
    rw [hI'.1]
    exact drop_count_pack s'.t s'.r _ hI'.2.1 hI'.2.2.1 (le_trans (dcp_le _ _) (by norm_num))
  have hmT := phDone_step_mono s.pt s'.pt relT
  have hmR := phDone_step_mono s.pr s'.pr relR
  have ht0 := done_t_zero s' hI'
  have hr0 := done_r_zero s' hI'
  have hQt' := hI'.2.2.2.2.2.2.2.1
  have hQr' := hI'.2.2.2.2.2.2.2.2
  refine ⟨by decide, ?_, ?_, ?_, ?_, ?_⟩
  · rw [hdc, hdc']
    exact dcp_step_mono s.pt s.pr s'.pt s'.pr hmT hmR
  · rw [hdc, hdc']
    exact dcp_succ_bound s.pt s.pr s'.pt s'.pr hone
  · rw [hdc']
    exact dcp_le _ _
  · intro hinc
    rw [hdc, hdc'] at hinc
    rcases dcp_succ_cases s.pt s.pr s'.pt s'.pr hone hinc with ⟨hfT, hdT, -⟩ | ⟨hfR, hdR, -⟩
    · rcases relT with he | ⟨ha, hq⟩ | ⟨hn, he2⟩ | ⟨hn2, he3⟩
      · rw [he] at hdT
        rw [hdT] at hfT
        exact absurd hfT (by decide)
      · rcases hq with h1 | h1
        · rw [h1] at hdT
          exact absurd hdT (by decide)
        · exact Or.inl ⟨ha, h1, ht0 hdT, hQt' h1⟩
      · rw [he2] at hdT
        exact absurd hdT (by decide)
      · exact Or.inr (Or.inr (Or.inl ⟨hn2, he3, ht0 hdT⟩))
    · rcases relR with he | ⟨ha, hq⟩ | ⟨hn, he2⟩ | ⟨hn2, he3⟩
      · rw [he] at hdR
        rw [hdR] at hfR
        exact absurd hfR (by decide)
      · rcases hq with h1 | h1
        · rw [h1] at hdR
          exact absurd hdR (by decide)
        · exact Or.inr (Or.inl ⟨ha, h1, hQr' h1, hr0 hdR⟩)
      · rw [he2] at hdR
        exact absurd hdR (by decide)
      · exact Or.inr (Or.inr (Or.inr ⟨hn2, he3, hr0 hdR⟩))
  · obtain ⟨hds, -, -, -⟩ := evsOf_count s
    obtain ⟨hds', -, -, -⟩ := evsOf_count s'
    constructor
    · intro hmem
      have hpos : 0 < List.count Ev.destroy evs' := List.count_pos_iff.mpr hmem
      have hcnt : List.count Ev.destroy (evsOf s')
          = List.count Ev.destroy (evsOf s) + List.count Ev.destroy evs' := by
        rw [hev, List.count_append]
      have hA' : phDone s'.pt = true ∧ phDone s'.pr = true := by
        by_contra hc2
        rw [if_neg hc2] at hds'
        omega
      rw [if_pos hA'] at hds'
      have hnA : ¬ (phDone s.pt = true ∧ phDone s.pr = true) := by
        intro hA
        rw [if_pos hA] at hds
        omega
      have h2' : dcp s'.pt s'.pr = 2 := (dcp_eq_two _ _).mpr hA'
      have h1' : dcp s.pt s.pr ≠ 2 := fun hh => hnA ((dcp_eq_two _ _).mp hh)
      have hub := dcp_succ_bound s.pt s.pr s'.pt s'.pr hone
      have hle := dcp_le s.pt s.pr
      rw [hdc, hdc']
      omega
    · rintro ⟨h1c, h2c⟩
      rw [hdc] at h1c
      rw [hdc'] at h2c
      have hA' := (dcp_eq_two _ _).mp h2c
      have hnA : ¬ (phDone s.pt = true ∧ phDone s.pr = true) := by
        intro hA
        have := (dcp_eq_two s.pt s.pr).mpr hA
        omega
      rw [if_neg hnA] at hds
      rw [if_pos hA'] at hds'
      have hcnt : List.count Ev.destroy (evsOf s')
          = List.count Ev.destroy (evsOf s) + List.count Ev.destroy evs' := by
        rw [hev, List.count_append]
      exact List.count_pos_iff.mp (by omega)

/-- Witness for C6 at the concrete step dropping the last tx handle from the
initial state. -/
theorem C6_finalize_count_witness :
    Inv stInit
    ∧ step stInit Lab.dropT = some (⟨4, 0, 1, Phase.notifying, Phase.alive⟩, [])
    ∧ (tx_count stInit.c = 1 ∧ rx_count stInit.c = 1 ∧ drop_count stInit.c = 0)
    ∧ DcStep stInit ⟨4, 0, 1, Phase.notifying, Phase.alive⟩ [] :=
  ⟨inv_init, by decide,
    (C6_finalize_count stInit Lab.dropT ⟨4, 0, 1, Phase.notifying, Phase.alive⟩ []
      inv_init (by decide)).1,
    (C6_finalize_count stInit Lab.dropT ⟨4, 0, 1, Phase.notifying, Phase.alive⟩ []
      inv_init (by decide)).2⟩

/-- C7 counterexample: `inc_tx` tests the PRE-increment sub-count, not the
post-increment one.  At tx count `2^30 - 1` the clone returns normally even
though the post-increment count `2^30` is not below the panic threshold. -/
theorem C7_counterexample :
    inc_tx (pack (2 ^ 30 - 1) 1 0) = IncResult.ok (pack (2 ^ 30) 1 0)
    ∧ tx_count (pack (2 ^ 30 - 1) 1 0) < OVERFLOW_PANIC
    ∧ ¬ (tx_count (pack (2 ^ 30) 1 0) < OVERFLOW_PANIC) := by decide

/-- C7 (amended): a clone's increment checks the PRE-increment value of its
sub-count against the two thresholds.  If the old sub-count is below the
panic threshold the clone returns normally with the incremented word, the
other sub-count and the finalize count unchanged; if the old sub-count lies
between the panic and abort thresholds the increment is undone exactly (the
whole word, hence every field, is restored to its value before the attempt)
and the clone fails with the recoverable overflow panic.  Both handle kinds
behave symmetrically. -/
theorem C7_clone_overflow_pre_increment (c : Nat) (hc : c < U64) :
    (tx_count c < OVERFLOW_PANIC →
      inc_tx c = IncResult.ok ((c + TX_INC) % U64)
      ∧ rx_count ((c + TX_INC) % U64) = rx_count c
      ∧ drop_count ((c + TX_INC) % U64) = drop_count c)
    ∧ (OVERFLOW_PANIC ≤ tx_count c → tx_count c < OVERFLOW_ABORT →
        inc_tx c = IncResult.panicked c)
    ∧ (rx_count c < OVERFLOW_PANIC →
      inc_rx c = IncResult.ok ((c + RX_INC) % U64)
      ∧ tx_count ((c + RX_INC) % U64) = tx_count c
      ∧ drop_count ((c + RX_INC) % U64) = drop_count c)
    ∧ (OVERFLOW_PANIC ≤ rx_count c → rx_count c < OVERFLOW_ABORT →
        inc_rx c = IncResult.panicked c) := by
  refine ⟨?_, ?_, ?_, ?_⟩
  · intro hlt
    refine ⟨?_, ?_, ?_⟩
    · unfold inc_tx
      dsimp only
      rw [if_pos hlt]
    · rw [rx_count_eq, rx_count_eq]
      unfold U64 TX_INC TX_SHIFT
      omega
    · rw [drop_count_eq, drop_count_eq]
      unfold U64 TX_INC TX_SHIFT
      omega
  · intro h1 h2
    unfold inc_tx
    dsimp only
    rw [if_neg (by omega), if_neg (by omega)]
    have hr : ((c + TX_INC) % U64 + (U64 - TX_INC)) % U64 = c := by
      unfold U64 TX_INC TX_SHIFT
      unfold U64 at hc
      omega
    rw [hr]
  · intro hlt
    refine ⟨?_, ?_, ?_⟩
    · unfold inc_rx
      dsimp only
      rw [if_pos hlt]
    · rw [tx_count_eq, tx_count_eq, rx_count_eq] at *
      unfold U64 RX_INC RX_SHIFT
      unfold OVERFLOW_PANIC at hlt
      omega
    · rw [drop_count_eq, drop_count_eq]
      unfold U64 RX_INC RX_SHIFT
      omega
  · intro h1 h2
    unfold inc_rx
    dsimp only
    rw [if_neg (by omega), if_neg (by omega)]
    have hr : ((c + RX_INC) % U64 + (U64 - RX_INC)) % U64 = c := by
      unfold U64 RX_INC RX_SHIFT
      unfold U64 at hc
      omega
    rw [hr]

/-- Witness for C7 at the word of the freshly created counter. -/
theorem C7_clone_overflow_pre_increment_witness :
    RC_INIT < U64
    ∧ tx_count RC_INIT < OVERFLOW_PANIC
    ∧ (inc_tx RC_INIT = IncResult.ok ((RC_INIT + TX_INC) % U64)
      ∧ rx_count ((RC_INIT + TX_INC) % U64) = rx_count RC_INIT
      ∧ drop_count ((RC_INIT + TX_INC) % U64) = drop_count RC_INIT) :=
  ⟨by decide, by decide,
    (C7_clone_overflow_pre_increment RC_INIT (by decide)).1 (by decide)⟩

theorem OVERFLOW_ABORT_eq : OVERFLOW_ABORT = 4294901759 := by decide

/-- C8: the abort threshold is unreachable.  Both extracted sub-counts are
masked to 31 bits, so they are always below `2^31`, while
`OVERFLOW_ABORT = u32::MAX - 2^16` is far above `2^31`; consequently no
word whatsoever makes `inc_tx` or `inc_rx` take the abort branch — the
`abort()` call guarding "FatalCorruption" is dead code and the claimed
process-termination behaviour can never trigger. -/
theorem C8_abort_dead_code (c : Nat) :
    tx_count c < OVERFLOW_ABORT
    ∧ rx_count c < OVERFLOW_ABORT
    ∧ inc_tx c ≠ IncResult.aborted
    ∧ inc_rx c ≠ IncResult.aborted := by
  have htb : tx_count c < 2 ^ 31 := by
    rw [tx_count_eq]
    omega
  have hrb : rx_count c < 2 ^ 31 := by
    rw [rx_count_eq]
    omega
  have hoa := OVERFLOW_ABORT_eq
  refine ⟨by omega, by omega, ?_, ?_⟩
  · unfold inc_tx
    dsimp only
    by_cases h : tx_count c < OVERFLOW_PANIC
    · rw [if_pos h]
      exact fun hx => IncResult.noConfusion hx
    · rw [if_neg h, if_neg (by omega)]
      exact fun hx => IncResult.noConfusion hx
  · unfold inc_rx
    dsimp only
    by_cases h : rx_count c < OVERFLOW_PANIC
    · rw [if_pos h]
      exact fun hx => IncResult.noConfusion hx
    · rw [if_neg h, if_neg (by omega)]
      exact fun hx => IncResult.noConfusion hx

/-- C9: from any reachable state, cloning then dropping a handle N times
while an original handle of that kind is still held returns the counter to
exactly the same state (same packed word, same sub-counts) and emits no
event — no callback, no destruction, no release.  This holds for both
handle kinds. -/
theorem C9_clone_drop_identity (ls : List Lab) (s : St) (evs : List Ev) (n : Nat)
    (h : run stInit ls = some (s, evs)) :
    (1 ≤ s.t → s.t < 2 ^ 30 → run s (cloneDropT n) = some (s, []))
    ∧ (1 ≤ s.r → s.r < 2 ^ 30 → run s (cloneDropR n) = some (s, [])) := by
  obtain ⟨hI, -⟩ := run_init_sound ls s evs h
  obtain ⟨c, t, r, pt, pr⟩ := s
  exact ⟨fun h1 h2 => run_cloneDropT n c t r pt pr hI h1 h2,
    fun h1 h2 => run_cloneDropR n c t r pt pr hI h1 h2⟩

/-- Witness for C9: three clone/drop round trips of each kind from the
freshly created pair change nothing and emit nothing. -/
theorem C9_clone_drop_identity_witness :
    run stInit ([] : List Lab) = some (stInit, [])
    ∧ 1 ≤ stInit.t ∧ stInit.t < 2 ^ 30
    ∧ 1 ≤ stInit.r ∧ stInit.r < 2 ^ 30
    ∧ run stInit (cloneDropT 3) = some (stInit, [])
    ∧ run stInit (cloneDropR 3) = some (stInit, []) :=
  ⟨rfl, by decide, by decide, by decide, by decide,
    (C9_clone_drop_identity [] stInit [] 3 rfl).1 (by decide) (by decide),
    (C9_clone_drop_identity [] stInit [] 3 rfl).2 (by decide) (by decide)⟩

/-- C10: `pin(data)` is definitionally `new(data)` wrapped in the pin
shell — identical payload, identical initial counter state, and identical
behaviour of the counter on every subsequent schedule of clone/drop
operations (it adds no counting behaviour).  Notification is delivered
through the pinned callback variants, and a `Notify` implementation that
supplies only the ordinary callbacks has its pinned variants default to
exactly those ordinary callbacks, which is what the drop path then
invokes. -/
theorem C10_pin_refines_new (E : Type) (d : E) (f g : E → E) (ls : List Lab) :
    pin E d = ⟨new E d⟩
    ∧ (pin E d).get = new E d
    ∧ (pin E d).get.st = stInit
    ∧ (new E d).st = stInit
    ∧ (pin E d).get.data = (new E d).data
    ∧ run (pin E d).get.st ls = run (new E d).st ls
    ∧ ({ lastTxDidDrop := f, lastRxDidDrop := g } : NotifyImpl E).lastTxDidDropPinned = f
    ∧ ({ lastTxDidDrop := f, lastRxDidDrop := g } : NotifyImpl E).lastRxDidDropPinned = g
    ∧ notifyEv E { lastTxDidDrop := f, lastRxDidDrop := g } Ev.cbTx = f
    ∧ notifyEv E { lastTxDidDrop := f, lastRxDidDrop := g } Ev.cbRx = g :=
  ⟨rfl, rfl, rfl, rfl, rfl, rfl, rfl, rfl, rfl, rfl⟩

end Splitrc
